import Mathlib

/-!
Verification of the DecenRep medical-report pipeline.

Shallow embedding of the text-processing core of `pipeline.py` and
`certificate.py`.  Strings are modelled as `List Char` internally
(`String` in Lean 4.14 wraps exactly a `List Char`), Python's `len` on
`str` is `List.length`, and the regular expressions used by the source
are embedded as deterministic scanners that mirror the backtracking
behaviour of Python's `re` on the concrete patterns in question.
Floating-point overlap ratios (`overlap > 0.8`) are modelled with exact
rationals: every ratio the code can produce on realistically sized word
sets rounds to a double on the same side of `0.8` as the exact rational
(in particular a ratio of exactly `4/5` equals the double literal `0.8`),
so the model is faithful at the boundary the spec talks about.
-/

set_option maxRecDepth 100000

namespace DecenRep

/-- Whitespace as recognised by Python's `str.strip()` and the regex class
represented in the ASCII range: space, tab, newline, carriage return,
form feed, vertical tab. -/
def isWS (c : Char) : Bool :=
  c = ' ' || c = '\t' || c = '\n' || c = '\x0d' || c = '\x0c' || c = '\x0b'

/-- Sentence-terminal punctuation used by `remove_duplicate_content`. -/
def isPunct (c : Char) : Bool :=
  c = '.' || c = '!' || c = '?'

/-- ASCII lower-casing of a single character (Python `str.lower` on the
ASCII texts this pipeline manipulates). -/
def lowerChar (c : Char) : Char :=
  if 'A' ≤ c ∧ c ≤ 'Z' then Char.ofNat (c.toNat + 32) else c

/-- ASCII upper-casing of a single character (Python `str.upper`). -/
def upperChar (c : Char) : Char :=
  if 'a' ≤ c ∧ c ≤ 'z' then Char.ofNat (c.toNat - 32) else c

/-- Drop leading whitespace (left half of Python `str.strip()`). -/
def trimLeft (l : List Char) : List Char := l.dropWhile isWS

/-- Drop trailing whitespace (right half of Python `str.strip()`). -/
def trimRight (l : List Char) : List Char := (l.reverse.dropWhile isWS).reverse

/-- Python `str.strip()`. -/
def strip (l : List Char) : List Char := trimRight (trimLeft l)

/-- State machine behind `re.sub(r'\s+', ' ', s)`: `prevWS` records
whether the previous character was whitespace, so that exactly the first
character of each whitespace run produces the replacement space. -/
def collapseGo (prevWS : Bool) : List Char → List Char
  | [] => []
  | c :: rest =>
    if isWS c then
      if prevWS then collapseGo true rest else ' ' :: collapseGo true rest
    else c :: collapseGo false rest

/-- Embedding of `re.sub(r'\s+', ' ', s)`: every maximal whitespace run
becomes a single space. -/
def collapseWS (l : List Char) : List Char := collapseGo false l

/-- State machine behind `re.sub(r'<[^>]+>', '', s)`.  `buf = some acc`
means a candidate tag was opened and `acc` holds its reversed body so
far.  A closing bracket after a non-empty body completes the removal; a
closing bracket right after the opening one fails the `[^>]+` class and
both brackets are copied; an unterminated candidate is copied at the end
of the input (no opening bracket inside it can start a tag, because no
closing bracket follows). -/
def untagGo (buf : Option (List Char)) : List Char → List Char
  | [] =>
    match buf with
    | none => []
    | some acc => '<' :: acc.reverse
  | c :: rest =>
    match buf with
    | none => if c = '<' then untagGo (some []) rest else c :: untagGo none rest
    | some acc =>
      if c = '>' then
        if acc = [] then '<' :: '>' :: untagGo none rest
        else untagGo none rest
      else untagGo (some (c :: acc)) rest

/-- Embedding of `re.sub(r'<[^>]+>', '', s)`: remove each tag, i.e. each
occurrence of a literal opening angle bracket, one or more non-closing
characters, and a closing angle bracket; scanning is left to right and
non-overlapping. -/
def untag (l : List Char) : List Char := untagGo none l

/-- Accumulator form of Python `str.split()`: `acc` holds the reversed
current word. -/
def splitWordsGo (acc : List Char) : List Char → List (List Char)
  | [] => if acc = [] then [] else [acc.reverse]
  | c :: rest =>
    if isWS c then
      if acc = [] then splitWordsGo [] rest
      else acc.reverse :: splitWordsGo [] rest
    else splitWordsGo (c :: acc) rest

/-- Python `str.split()` with no arguments: split on whitespace runs,
dropping empty pieces. -/
def splitWords (l : List Char) : List (List Char) := splitWordsGo [] l

/-- Sentence-comparison normalisation from `remove_duplicate_content`:
`re.sub(r'<[^>]+>', '', sentence).strip().lower()` followed by
`re.sub(r'\s+', ' ', ...)`. -/
def cleanSentence (s : List Char) : List Char :=
  collapseWS ((strip (untag s)).map lowerChar)

/-- Sentence-splitting loop of `remove_duplicate_content` (Step 1): grow
`cur` one character at a time; a terminal-punctuation character whose
accumulated, stripped sentence is longer than 10 characters ends a
sentence; a non-empty stripped remainder is appended at the end. -/
def splitGo (cur : List Char) : List Char → List (List Char)
  | [] => if strip cur = [] then [] else [strip cur]
  | c :: rest =>
    if isPunct c ∧ 10 < (strip (cur ++ [c])).length then
      strip (cur ++ [c]) :: splitGo [] rest
    else splitGo (cur ++ [c]) rest

/-- Step 1 of `remove_duplicate_content`: split the text into sentences. -/
def splitSentences (t : List Char) : List (List Char) := splitGo [] t

/-- The word set of a normalised sentence: `set(clean_sentence.split())`.
Duplicates are removed; only membership and cardinality are used. -/
def wordSet (s : List Char) : List (List Char) := (splitWords s).dedup

/-- Size of the intersection of the two word sets. -/
def overlapNum (a b : List Char) : ℕ :=
  ((wordSet a).filter (fun w => w ∈ wordSet b)).length

/-- The similarity ratio of `remove_duplicate_content`:
`len(A & B) / min(len(A), len(B))`, as an exact rational. -/
def overlapQ (a b : List Char) : ℚ :=
  (overlapNum a b : ℚ) / (min (wordSet a).length (wordSet b).length : ℚ)

/-- The duplicate test of `remove_duplicate_content` against one stored
comparison key: both word sets non-empty and overlap strictly above 0.8. -/
def isDupOf (cl k : List Char) : Prop :=
  0 < (wordSet cl).length ∧ 0 < (wordSet k).length ∧ 4 / 5 < overlapQ cl k

instance (cl k : List Char) : Decidable (isDupOf cl k) :=
  decidable_of_iff
    (0 < (wordSet cl).length ∧ 0 < (wordSet k).length ∧
      4 * min (wordSet cl).length (wordSet k).length < 5 * overlapNum cl k)
    (by
      unfold isDupOf overlapQ
      constructor
      · rintro ⟨h1, h2, h3⟩
        refine ⟨h1, h2, ?_⟩
        have hm : (0 : ℚ) < min ((wordSet cl).length : ℚ) ((wordSet k).length : ℚ) :=
          lt_min (by exact_mod_cast h1) (by exact_mod_cast h2)
        rw [div_lt_div_iff₀ (by norm_num) hm]
        have h4 : (4 : ℚ) * min ((wordSet cl).length : ℚ) ((wordSet k).length : ℚ) <
            5 * (overlapNum cl k : ℚ) := by exact_mod_cast h3
        linarith
      · rintro ⟨h1, h2, h3⟩
        refine ⟨h1, h2, ?_⟩
        have hm : (0 : ℚ) < min ((wordSet cl).length : ℚ) ((wordSet k).length : ℚ) :=
          lt_min (by exact_mod_cast h1) (by exact_mod_cast h2)
        rw [div_lt_div_iff₀ (by norm_num) hm] at h3
        have h4 : (4 : ℚ) * min ((wordSet cl).length : ℚ) ((wordSet k).length : ℚ) <
            5 * (overlapNum cl k : ℚ) := by linarith
        exact_mod_cast h4)

/-- `seen_content.add(clean_sentence)` on the set of comparison keys,
modelled as a duplicate-free list. -/
def addKey (seen : List (List Char)) (cl : List Char) : List (List Char) :=
  if cl ∈ seen then seen else seen ++ [cl]

/-- Step 2 of `remove_duplicate_content`: the online deduplication loop.
A sentence whose normalised form is shorter than 15 characters is kept
without comparison; otherwise it is dropped when it is a near-duplicate
of any stored key and kept (recording its normalised form) when not. -/
def dedupRun (seen : List (List Char)) : List (List Char) → List (List Char)
  | [] => []
  | s :: ss =>
    if (cleanSentence s).length < 15 then s :: dedupRun seen ss
    else if ∃ k ∈ seen, isDupOf (cleanSentence s) k then dedupRun seen ss
    else s :: dedupRun (addKey seen (cleanSentence s)) ss

/-- Python `' '.join(...)`. -/
def joinSp : List (List Char) → List Char
  | [] => []
  | [s] => s
  | s :: ss => s ++ ' ' :: joinSp ss

/-- Parse one `<h2[^>]*>[^<]*</h2>` block (case-sensitive, as in the
header-spacing regex of `remove_duplicate_content`), returning the block
and the remainder. -/
def parseH2Block (l : List Char) : Option (List Char × List Char) :=
  if l.take 3 = ['<', 'h', '2'] then
    let r1 := l.drop 3
    let a := r1.takeWhile (fun x => x ≠ '>')
    match r1.drop a.length with
    | '>' :: r3 =>
      let b := r3.takeWhile (fun x => x ≠ '<')
      let r4 := r3.drop b.length
      if r4.take 5 = ['<', '/', 'h', '2', '>'] then
        some (['<', 'h', '2'] ++ a ++ '>' :: b ++ ['<', '/', 'h', '2', '>'], r4.drop 5)
      else none
    | _ => none
  else none

/-- Parse two adjacent `h2` blocks separated by optional whitespace, the
match of `r'(<h2[^>]*>[^<]*</h2>)\s*(<h2[^>]*>[^<]*</h2>)'`. -/
def parseH2Pair (l : List Char) : Option (List Char × List Char × List Char) := do
  let (g1, r1) ← parseH2Block l
  let r2 := r1.drop (r1.takeWhile isWS).length
  let (g2, r3) ← parseH2Block r2
  pure (g1, g2, r3)

/-- Fuel-indexed form of the header-spacing substitution; the fuel only
serves structural recursion and `headerSub` supplies one unit per input
character, which is always enough because a replacement consumes at
least one character.  Exhausted fuel returns the input unchanged. -/
def headerSubF : ℕ → List Char → List Char
  | 0, l => l
  | _ + 1, [] => []
  | fuel + 1, c :: rest =>
    match parseH2Pair (c :: rest) with
    | some (g1, g2, r) => g1 ++ '\n' :: '\n' :: g2 ++ headerSubF fuel r
    | none => c :: headerSubF fuel rest

/-- Step 4 of `remove_duplicate_content`, second substitution:
`re.sub(r'(<h2...*</h2>)\\s*(<h2...*</h2>)', r'\\1\\n\\n\\2', result)` — put a
blank line between two adjacent section headers; scanning resumes after
each replacement. -/
def headerSub (l : List Char) : List Char := headerSubF l.length l

/-- Embedding of `remove_duplicate_content` on character lists for a
non-empty input: split into sentences, run the online deduplication,
rejoin with single spaces, normalise whitespace, and space out adjacent
headers. -/
def rdcL (t : List Char) : List Char :=
  headerSub (collapseWS (joinSp (dedupRun [] (splitSentences t))))

/-- `remove_duplicate_content` from `pipeline.py` (an empty or falsy text
is returned unchanged). -/
def remove_duplicate_content (s : String) : String :=
  if s = "" then s else ⟨rdcL s.data⟩

/-- Parse the third-section heading
`<h2>Recommended next steps[^<]*</h2>` case-insensitively at the head of
the input, returning the matched heading text and the remainder. -/
def parseHeadingAt (l : List Char) : Option (List Char × List Char) :=
  let pat : List Char := "<h2>recommended next steps".data
  if (l.take pat.length).map lowerChar = pat then
    let h1 := l.take pat.length
    let r1 := l.drop pat.length
    let a := r1.takeWhile (fun x => x ≠ '<')
    let r2 := r1.drop a.length
    if (r2.take 5).map lowerChar = "</h2>".data then
      some (h1 ++ a ++ r2.take 5, r2.drop 5)
    else none
  else none

/-- The lazy tail capture `.*?(?=<h2>|$)` (DOTALL, IGNORECASE, no
MULTILINE): capture as little as possible until the remainder starts with
a (case-insensitive) `<h2>`, is empty, or is exactly a final newline. -/
def lazyCapture : List Char → List Char
  | [] => []
  | c :: rest =>
    if ((c :: rest).take 4).map lowerChar = "<h2>".data ∨ (c :: rest) = ['\n'] then []
    else c :: lazyCapture rest

/-- The search of `ensure_proper_ending`: find the leftmost position where
the third-section heading matches, and return the text before it together
with the matched block (heading plus lazily captured content). -/
def epeSearch : List Char → Option (List Char × List Char)
  | [] => none
  | c :: rest =>
    match parseHeadingAt (c :: rest) with
    | some (h, r) => some ([], h ++ lazyCapture r)
    | none => (epeSearch rest).map (fun p => (c :: p.1, p.2))

/-- `ensure_proper_ending` from `pipeline.py`: keep everything before the
matched third-section block, keep the block, drop everything after it and
strip the result; return the input unchanged when the heading never
matches (or the input is falsy). -/
def ensure_proper_ending (s : String) : String :=
  if s = "" then s
  else
    match epeSearch s.data with
    | some (before, block) => ⟨strip (before ++ block)⟩
    | none => s

/-- State machine behind `re.sub(r"[^\x00-\x7F]+", " ", s)`: `prevHi`
records whether the previous character was non-ASCII, so that exactly
the first character of each non-ASCII run produces the replacement
space. -/
def asciiGo (prevHi : Bool) : List Char → List Char
  | [] => []
  | c :: rest =>
    if c.toNat ≤ 127 then c :: asciiGo false rest
    else if prevHi then asciiGo true rest else ' ' :: asciiGo true rest

/-- Embedding of `re.sub(r"[^\x00-\x7F]+", " ", s)` from `explain_text`:
every maximal run of non-ASCII characters becomes a single space. -/
def asciiClean (l : List Char) : List Char := asciiGo false l

/-- The `cleaned_text` computation of `explain_text`: strip non-ASCII
junk, collapse whitespace, strip the ends. -/
def cleanTextL (t : List Char) : List Char :=
  strip (collapseWS (asciiClean t))

/-- First half of the fixed fallback template of
`generate_simple_fallback`, up to the interpolated character count. -/
def fallbackPart1 : String :=
  "\n    <h2>Medical Report Analysis</h2>\n    <p>I\x27ve analyzed your medical report. Unfortunately, the advanced AI analysis is currently unavailable, \n    but I can confirm that your document has been processed and contains "

/-- Second half of the fixed fallback template of
`generate_simple_fallback`, after the interpolated character count. -/
def fallbackPart2 : String :=
  " characters of medical text.</p>\n    \n    <p>For a detailed explanation of your medical report, please:</p>\n    <ul>\n        <li>Consult with your healthcare provider</li>\n        <li>Ask your doctor to explain any medical terms you don\x27t understand</li>\n        <li>Request a follow-up appointment if you have concerns</li>\n    </ul>\n    \n    <p><em>Note: This is a basic fallback response. For comprehensive medical analysis, \n    please ensure the AI service is properly configured.</em></p>\n    "

/-- `generate_simple_fallback` from `pipeline.py`: the deterministic
fallback narrative, mentioning the character count of its input. -/
def generate_simple_fallback (text : String) : String :=
  fallbackPart1 ++ toString text.length ++ fallbackPart2

/-- The ordered fallback chain of `generate_llm_summary`: each entry is
the outcome of one LLM backend (`some` = the generated text, `none` = the
call raised); the first successful backend wins and later ones are never
consulted. -/
def firstSuccess : List (Option String) → Option String
  | [] => none
  | some s :: _ => some s
  | none :: bs => firstSuccess bs

/-- `generate_llm_summary` from `pipeline.py`: try the backends in order;
pass the first successful raw result through `remove_duplicate_content`
and `ensure_proper_ending`; return `None` when every backend raised.  The
text argument only feeds the prompt of the external calls and does not
influence the modelled outcome. -/
def generate_llm_summary (backends : List (Option String)) (_text : String) : Option String :=
  (firstSuccess backends).map (fun s => ensure_proper_ending (remove_duplicate_content s))

/-- Message returned by `explain_text` when the input holds fewer than 20
characters after stripping. -/
def msgNoLegible1 : String :=
  "I couldn\x27t find any legible text in this document. Please check if the file is clear and contains actual text content."

/-- Message returned by `explain_text` when cleaning leaves nothing. -/
def msgNoLegible2 : String :=
  "I couldn\x27t find any legible text in this document. Please check if the image is clear and try again."

/-- `explain_text` from `pipeline.py`.  `hasApiKey` models the check
`GROQ_API_KEY and GROQ_API_KEY != "your-api-key-here"`; `backends` models
the outcomes of the three LLM calls attempted by `generate_llm_summary`.
The outer exception handler of the source is unreachable because every
call it guards is total, so it is not represented. -/
def explain_text (hasApiKey : Bool) (backends : List (Option String)) (text : String) : String :=
  if text = "" ∨ (strip text.data).length < 20 then msgNoLegible1
  else
    let cleaned : String := ⟨cleanTextL text.data⟩
    if cleaned = "" then msgNoLegible2
    else if hasApiKey then
      match generate_llm_summary backends ⟨cleaned.data.take 8000⟩ with
      | some s => if 100 < s.length then s else generate_simple_fallback cleaned
      | none => generate_simple_fallback cleaned
    else generate_simple_fallback cleaned

/-- First `some` produced by `f` along a list, in order; models ordered
alternation with backtracking in the embedded regexes. -/
def firstSomeList {α β : Type} (f : α → Option β) : List α → Option β
  | [] => none
  | a :: as =>
    match f a with
    | some b => some b
    | none => firstSomeList f as

/-- The separator class of the labelled-field regexes: a colon or any
whitespace character. -/
def csep (c : Char) : Bool := c = ':' || isWS c

/-- The capture class of the name regexes: an ASCII letter, whitespace,
or a period. -/
def cgrp (c : Char) : Bool :=
  ('A' ≤ c ∧ c ≤ 'Z') || ('a' ≤ c ∧ c ≤ 'z') || isWS c || c = '.'

/-- Match the part of a labelled-field regex after the label at the head
of `r`:  one or more separator characters, then greedily 2 to 30 capture
characters, with the same backtracking order as Python's `re` (longest
separator run first, then longest capture).  Returns the raw capture
group. -/
def tryAfterLabel (r : List Char) : Option (List Char) :=
  firstSomeList
    (fun a =>
      let r2 := r.drop a
      let maxG := min 30 (r2.takeWhile cgrp).length
      firstSomeList (fun g => if 2 ≤ g then some (r2.take g) else none)
        ((List.range (maxG + 1)).reverse))
    (((List.range (r.takeWhile csep).length).map (fun n => n + 1)).reverse)

/-- Case-insensitive literal prefix test used by the labelled-field
regexes; the pattern is given lower-case. -/
def caselessHead (pat : String) (l : List Char) : Bool :=
  (l.take pat.length).map lowerChar = pat.data

/-- One attempt of the regex
`(?:patient|name)[:\s]+([A-Za-z\s\.]{2,30})` (IGNORECASE) at the head of
the input: try each label alternative in order, then the separator and
capture group. -/
def tryNameAt (l : List Char) : Option (List Char) :=
  firstSomeList
    (fun lab =>
      if caselessHead lab l then tryAfterLabel (l.drop lab.length) else none)
    ["patient", "name"]

/-- One attempt of the regex
`(?:doctor|physician|dr\.?)[:\s]+([A-Za-z\s\.]{2,30})` (IGNORECASE): the
alternatives in regex order, with the optional dot of `dr\.?` tried
greedily before the bare `dr`. -/
def tryDoctorAt (l : List Char) : Option (List Char) :=
  firstSomeList
    (fun lab =>
      if caselessHead lab l then tryAfterLabel (l.drop lab.length) else none)
    ["doctor", "physician", "dr.", "dr"]

/-- The lookahead `(?=\n\n|\n[A-Z]|$)` of the diagnosis regex (no
MULTILINE, so `$` is the end of the string or just before a final
newline; the regex carries IGNORECASE, so the class `[A-Z]` also matches
lower-case letters). -/
def diagStop : List Char → Bool
  | [] => true
  | ['\n'] => true
  | '\n' :: '\n' :: _ => true
  | '\n' :: c :: _ => ('A' ≤ c ∧ c ≤ 'Z') || ('a' ≤ c ∧ c ≤ 'z')
  | _ => false

/-- The lazy capture `(.*?)` of the diagnosis regex (DOTALL): take as
little as possible until the stop lookahead holds. -/
def lazyDiag : List Char → List Char
  | [] => []
  | c :: rest => if diagStop (c :: rest) then [] else c :: lazyDiag rest

/-- One attempt of the regex
`(?:diagnosis)[:\s]+(.*?)(?=\n\n|\n[A-Z]|$)` (IGNORECASE, DOTALL): the
separator run is consumed greedily, after which the lazy capture always
succeeds because `$` matches at the end of the input. -/
def tryDiagAt (l : List Char) : Option (List Char) :=
  if caselessHead "diagnosis" l then
    let r := l.drop 9
    if (r.takeWhile csep).length = 0 then none
    else some (lazyDiag (r.drop (r.takeWhile csep).length))
  else none

/-- `re.search` position scan: try the attempt at every position from the
left and return the first capture. -/
def searchField (tryAt : List Char → Option (List Char)) : List Char → Option (List Char)
  | [] => none
  | c :: rest =>
    match tryAt (c :: rest) with
    | some g => some g
    | none => searchField tryAt rest

/-- The dictionary built by `extract_key_info`. -/
structure KeyInfo where
  patient_name : Option String
  doctor : Option String
  diagnosis : Option String
deriving DecidableEq

/-- `MedicalCertificate.extract_key_info`: best-effort extraction of the
patient name, doctor name and diagnosis, each `group(1).strip()` of its
regex search. -/
def extract_key_info (text : String) : KeyInfo where
  patient_name := (searchField tryNameAt text.data).map (fun g => (⟨strip g⟩ : String))
  doctor := (searchField tryDoctorAt text.data).map (fun g => (⟨strip g⟩ : String))
  diagnosis := (searchField tryDiagAt text.data).map (fun g => (⟨strip g⟩ : String))

/-- ASCII decimal digit. -/
def isDigitC (c : Char) : Bool := '0' ≤ c ∧ c ≤ '9'

/-- ASCII upper-case letter. -/
def isUpperC (c : Char) : Bool := 'A' ≤ c ∧ c ≤ 'Z'

/-- The word class `\w` of Python `re`, in the ASCII range. -/
def wordChar (c : Char) : Bool :=
  ('A' ≤ c ∧ c ≤ 'Z') || ('a' ≤ c ∧ c ≤ 'z') || isDigitC c || c = '_'

/-- Match the capture `[A-Z]\d{2}(?:\.\d{1,2})?` of the ICD-10 regex at
the head of the input, returning the code and the number of characters it
consumed (the optional decimal suffix is matched greedily). -/
def icdCode (l : List Char) : Option (List Char × ℕ) :=
  match l with
  | a :: d1 :: d2 :: rest =>
    if isUpperC a ∧ isDigitC d1 ∧ isDigitC d2 then
      match rest with
      | '.' :: e1 :: e2 :: _ =>
        if isDigitC e1 ∧ isDigitC e2 then some ([a, d1, d2, '.', e1, e2], 6)
        else if isDigitC e1 then some ([a, d1, d2, '.', e1], 5)
        else some ([a, d1, d2], 3)
      | ['.', e1] =>
        if isDigitC e1 then some ([a, d1, d2, '.', e1], 5)
        else some ([a, d1, d2], 3)
      | _ => some ([a, d1, d2], 3)
    else none
  | _ => none

/-- Match the full ICD-10 pattern
`(?:[([])?([A-Z]\d{2}(?:\.\d{1,2})?)[)\]]?` at the head of the input:
optional opening bracket, the code capture, optional closing bracket.
Returns the capture and the total consumed length. -/
def icdAt (l : List Char) : Option (List Char × ℕ) :=
  match l with
  | [] => none
  | c :: rest =>
    if c = '(' ∨ c = '[' then
      match icdCode rest with
      | some (code, n) =>
        match rest.drop n with
        | x :: _ => if x = ')' ∨ x = ']' then some (code, n + 2) else some (code, n + 1)
        | [] => some (code, n + 1)
      | none => none
    else
      match icdCode (c :: rest) with
      | some (code, n) =>
        match (c :: rest).drop n with
        | x :: _ => if x = ')' ∨ x = ']' then some (code, n + 1) else some (code, n)
        | [] => some (code, n)
      | none => none

/-- Fuel-indexed form of the ICD-10 `re.findall` scan; `icdScan` supplies
one unit of fuel per input character, which is always enough because a
match consumes at least one character.  Exhausted fuel finds nothing. -/
def icdScanF : ℕ → List Char → List (List Char)
  | 0, _ => []
  | _ + 1, [] => []
  | fuel + 1, c :: rest =>
    match icdAt (c :: rest) with
    | some (code, n) => code :: icdScanF fuel (rest.drop (n - 1))
    | none => icdScanF fuel rest

/-- `re.findall` for the ICD-10 pattern: non-overlapping left-to-right
scan collecting every capture group. -/
def icdScan (l : List Char) : List (List Char) := icdScanF l.length l

/-- Whether the position after a candidate match is a word boundary: the
remainder is empty or starts with a non-word character. -/
def noWordNext : List Char → Bool
  | [] => true
  | c :: _ => ¬ wordChar c

/-- Fuel-indexed form of the CPT `re.findall` scan: one character of
look-behind word/non-word state; a match is five digits preceded and
followed by a word boundary, and scanning resumes after the match.
`cptScan` supplies one unit of fuel per input character, always enough
because a match consumes five characters. -/
def cptGoF (fuel : ℕ) (prevIsWord : Bool) : List Char → List (List Char) :=
  match fuel with
  | 0 => fun _ => []
  | fuel + 1 => fun l =>
    match l with
    | [] => []
    | c :: rest =>
      if ¬ prevIsWord ∧ ((c :: rest).take 5).length = 5 ∧
          ((c :: rest).take 5).all isDigitC ∧ noWordNext ((c :: rest).drop 5) then
        (c :: rest).take 5 :: cptGoF fuel true (rest.drop 4)
      else cptGoF fuel (wordChar c) rest

/-- `re.findall(r'\b(\d{5})\b', text)`. -/
def cptScan (l : List Char) : List (List Char) := cptGoF l.length false l

/-- `re.search(r'\d{2}/\d{2}/\d{4}', text) is not None`: the text holds a
date-shaped substring `dd/dd/dddd` somewhere. -/
def hasDateAt : List Char → Bool
  | d1 :: d2 :: '/' :: d3 :: d4 :: '/' :: y1 :: y2 :: y3 :: y4 :: _ =>
    isDigitC d1 && isDigitC d2 && isDigitC d3 && isDigitC d4 &&
      isDigitC y1 && isDigitC y2 && isDigitC y3 && isDigitC y4
  | _ => false

/-- Whether any position of the text starts a date-shaped substring. -/
def hasDate : List Char → Bool
  | [] => false
  | c :: rest => hasDateAt (c :: rest) || hasDate rest

/-- The two capped code lists returned by `extract_medical_codes`. -/
structure MedCodes where
  icd10 : List String
  cpt : List String
deriving DecidableEq

/-- `MedicalCertificate.extract_medical_codes`: find ICD-10-like and
CPT-like codes; drop every CPT candidate when the text holds any
date-shaped substring; cap both lists at five entries. -/
def extract_medical_codes (text : String) : MedCodes where
  icd10 := ((icdScan text.data).take 5).map (fun l => (⟨l⟩ : String))
  cpt := (((cptScan text.data).filter (fun _ => ¬ hasDate text.data)).take 5).map
    (fun l => (⟨l⟩ : String))

/-- The fixed condition vocabulary of the diagnosis-summary scan in
`generate_certificate`, in regex alternation order. -/
def conditionKeywords : List String :=
  ["pneumonia", "diabetes", "hypertension", "infection", "heart", "lung",
   "cancer", "transplant", "cardiomyopathy"]

/-- One attempt of `\b(pneumonia|...|cardiomyopathy)\b` on the lowered
explanation at the current position, given the word/non-word state of the
previous character: the first alternative that matches with a word
boundary on both sides. -/
def condAt (prevIsWord : Bool) (l : List Char) : Option (List Char) :=
  if prevIsWord then none
  else
    firstSomeList
      (fun kw =>
        if l.take kw.length = kw.data ∧ noWordNext (l.drop kw.length) then
          some kw.data
        else none)
      conditionKeywords

/-- Fuel-indexed form of the condition-keyword `re.findall` scan:
non-overlapping left-to-right matching over the lowered explanation.
`condScan` supplies one unit of fuel per input character, always enough
because a match consumes at least one character. -/
def condScanF (fuel : ℕ) (prevIsWord : Bool) : List Char → List (List Char) :=
  match fuel with
  | 0 => fun _ => []
  | fuel + 1 => fun l =>
    match l with
    | [] => []
    | c :: rest =>
      match condAt prevIsWord (c :: rest) with
      | some kw => kw :: condScanF fuel true (rest.drop (kw.length - 1))
      | none => condScanF fuel (wordChar c) rest

/-- `re.findall` for the condition-keyword regex. -/
def condScan (l : List Char) : List (List Char) := condScanF l.length false l

/-- Seen-accumulator form of `list(dict.fromkeys(xs))`: deduplicate
keeping the first occurrence of each element, in order. -/
def dedupFirstGo (seen : List (List Char)) : List (List Char) → List (List Char)
  | [] => []
  | a :: l =>
    if a ∈ seen then dedupFirstGo seen l
    else a :: dedupFirstGo (a :: seen) l

/-- `list(dict.fromkeys(xs))`. -/
def dedupFirst (l : List (List Char)) : List (List Char) := dedupFirstGo [] l

/-- Python `', '.join(xs)`. -/
def joinComma : List (List Char) → List Char
  | [] => []
  | [s] => s
  | s :: ss => s ++ ',' :: ' ' :: joinComma ss

/-- Python `str.title()` restricted to the ASCII texts produced by the
keyword join: a letter is upper-cased after a non-letter and lower-cased
otherwise. -/
def titleGo (prevAlpha : Bool) : List Char → List Char
  | [] => []
  | c :: rest =>
    if ('A' ≤ c ∧ c ≤ 'Z') ∨ ('a' ≤ c ∧ c ≤ 'z') then
      (if prevAlpha then lowerChar c else upperChar c) :: titleGo true rest
    else c :: titleGo false rest

/-- The certificate dictionary built by `generate_certificate`, with the
nested `patient_info` and `medical_info` dictionaries flattened into
labelled fields. -/
structure Certificate where
  certificate_id : String
  document_hash : String
  verification_address : String
  timestamp : String
  patient_name : String
  patient_initials : String
  diagnosis_summary : String
  medical_codes : MedCodes
  treating_physician : String
  ai_analysis_available : Bool
  report_type : String
  certificate_status : String
deriving DecidableEq

/-- The default diagnosis summary before the explanation scan. -/
def diagDefault : String := "Medical report analyzed and processed"

/-- `MedicalCertificate.generate_certificate`.  `certUuid` stands for the
random `str(uuid.uuid4())[:8].upper()` and `utcNow` for the formatted
`datetime.utcnow()` timestamp, both supplied by the environment; the
JSON projection built alongside the dictionary is not consumed by the
pipeline and is not modelled. -/
def generate_certificate (certUuid : String) (utcNow : String) (text : String)
    (file_hash : String) (address : Option String) (explanation : Option String) :
    Certificate :=
  let key_info := extract_key_info text
  let expl := explanation.getD ""
  let diag1 :=
    if expl ≠ "" then
      let conds := condScan (expl.data.map lowerChar)
      if conds ≠ [] then
        (⟨("Conditions identified: ".data) ++
          titleGo false (joinComma ((dedupFirst conds).take 3))⟩ : String)
      else diagDefault
    else diagDefault
  let diag2 :=
    if diag1 = "" ∨ diag1 = diagDefault then
      key_info.diagnosis.getD "Medical report processed and analyzed by AI"
    else diag1
  { certificate_id := "MED-CERT-" ++ certUuid
    document_hash := file_hash
    verification_address :=
      match address with
      | some a => if a = "" then "Not verified on blockchain" else a
      | none => "Not verified on blockchain"
    timestamp := utcNow
    patient_name := key_info.patient_name.getD "Patient"
    patient_initials :=
      match key_info.patient_name with
      | some nm => ⟨((splitWords nm.data).take 2).map (fun w => upperChar (w.headD 'P'))⟩
      | none => "P.A."
    diagnosis_summary := diag2
    medical_codes := extract_medical_codes text
    treating_physician := key_info.doctor.getD "Medical Professional"
    ai_analysis_available := expl ≠ ""
    report_type := "Medical Report Analysis"
    certificate_status := "VALID" }

/-- English month abbreviations for `strftime('%b')`. -/
def monthAbbrev (m : ℕ) : String :=
  (["Jan", "Feb", "Mar", "Apr", "May", "Jun", "Jul", "Aug", "Sep", "Oct",
    "Nov", "Dec"].getD (m - 1) "Jan")

/-- Parse a two-character decimal field of the fixed-position timestamp. -/
def twoDigits (l : List Char) : ℕ :=
  match l with
  | a :: b :: _ => (a.toNat - 48) * 10 + (b.toNat - 48)
  | _ => 0

/-- Model of
`datetime.strptime(ts, '%Y-%m-%d %H:%M:%S UTC').strftime('%b %d, %Y at %H:%M UTC')`
on the well-formed timestamps that `generate_certificate` produces (on a
malformed string the Python call would raise, but the pipeline only ever
passes it timestamps freshly produced by `strftime`). -/
def formatTimestampHtml (ts : String) : String :=
  let d := ts.data
  ⟨(monthAbbrev (twoDigits (d.drop 5))).data ++ ' ' :: (d.drop 8).take 2 ++
    ',' :: ' ' :: d.take 4 ++ " at ".data ++ (d.drop 11).take 2 ++
    ':' :: (d.drop 14).take 2 ++ " UTC".data⟩

/-- `MedicalCertificate.generate_certificate_html`: the fixed HTML
document with the certificate fields interpolated; the hash is shown as
its first twenty and last eight characters. -/
def generate_certificate_html (cert : Certificate) : String :=
  "\n        <div class=\"medical-certificate\">\n            <div class=\"certificate-header\">\n                <h2>Medical Summary Certificate</h2>\n                <p class=\"cert-id\">ID: "
  ++ cert.certificate_id
  ++ "</p>\n            </div>\n            \n            <div class=\"certificate-body\">\n                <div class=\"section\">\n                    <h3>Document Verification</h3>\n                    <p><strong>Hash:</strong> "
  ++ (⟨cert.document_hash.data.take 20⟩ : String) ++ "..."
  ++ (⟨cert.document_hash.data.drop (cert.document_hash.data.length - 8)⟩ : String)
  ++ "</p>\n                    <p><strong>Verified:</strong> "
  ++ formatTimestampHtml cert.timestamp
  ++ "</p>\n                </div>\n                \n                <div class=\"section\">\n                    <h3>Patient Information</h3>\n                    <p><strong>Patient Initials:</strong> "
  ++ cert.patient_initials
  ++ "</p>\n                </div>\n                \n                <div class=\"section\">\n                    <h3>Medical Summary</h3>\n                    <p><strong>Diagnosis:</strong> "
  ++ cert.diagnosis_summary
  ++ "</p>\n                    \n                    <div class=\"codes\">\n                        <p><strong>Medical Codes:</strong></p>\n                        <ul>\n                            "
  ++ String.join ((cert.medical_codes.icd10.filter (fun c => c ≠ "")).map
      (fun c => "<li>" ++ c ++ "</li>"))
  ++ "\n                        </ul>\n                    </div>\n                    \n                    <p><strong>Physician:</strong> "
  ++ cert.treating_physician
  ++ "</p>\n                </div>\n                \n                <div class=\"verification\">\n                    <p>This certificate verifies that the referenced medical document \n                    has been cryptographically secured and contains the key medical information\n                    extracted from the original document.</p>\n                </div>\n            </div>\n            \n            <div class=\"certificate-footer\">\n                <p class=\"status\">Status: "
  ++ cert.certificate_status
  ++ "</p>\n                <p class=\"timestamp\">Generated: "
  ++ cert.timestamp
  ++ "</p>\n            </div>\n        </div>\n        "

/-- The per-submission result dictionary of
`MedicalReportPipeline.process_report`; optional payloads are absent
exactly when the corresponding dictionary key was never assigned. -/
structure Results where
  file_path : String
  file_id : String
  timestamp : String
  status : String
  steps_completed : List String
  errors : List String
  file_hash : Option String
  extracted_text : Option String
  explanation : Option String
  certificate : Option Certificate
  certificate_html : Option String
deriving DecidableEq

/-- The environment of one `process_report` run: the outcomes of every
external interaction.  `hashFile` is the combined
`open(file_path, "rb")` / `read` / `sha3_256 hexdigest` step (an
`Except` because file input is the one operation in the stage sequence
that can raise); `extract_text` is the OCR collaborator of `ocr.py`,
which catches its own exceptions and always returns a string;
`hasApiKey` and `backends` feed `explain_text`; `certUuid`, `utcNow` and
`now` are the random identifier and the two clock readings. -/
structure Env where
  hashFile : Except String String
  extract_text : String
  hasApiKey : Bool
  backends : List (Option String)
  certUuid : String
  utcNow : String
  now : String

/-- The process-wide `processed_files` mapping, keyed by `file_id`. -/
def Store := List (String × Results)

/-- Python dictionary assignment `self.processed_files[file_id] = results`. -/
def storeInsert (k : String) (v : Results) (st : Store) : Store :=
  (k, v) :: (st : List (String × Results)).filter (fun p => p.1 ≠ k)

/-- Python `self.processed_files.get(file_id, None)`. -/
def storeGet (st : Store) (k : String) : Option Results :=
  ((st : List (String × Results)).find? (fun p => p.1 = k)).map (fun p => p.2)

/-- `os.path.basename` on the forward-slash paths the app produces. -/
def basename (p : String) : String :=
  (p.splitOn "/").getLastD p

/-- `MedicalReportPipeline.process_report`: the staged pipeline.  Stage
order and bookkeeping mirror the source: hash, then OCR (recording
`OCR_EXTRACTION_FAILED` on short text), then analysis gated on the `ocr`
step, then certificate generation gated on the `analysis` step (the
source checks `if certificate_data:`, which always holds because
`generate_certificate` always returns a populated dictionary), then the
final status.  The one raising operation, `hashFile`, is caught by the
top-level handler, which marks the run `failed`, wraps the message in a
`PIPELINE_ERROR: ` entry and still stores the partial result.  Returns
the result together with the updated store. -/
def process_report (env : Env) (st : Store) (file_path : String)
    (fileId : Option String) : Results × Store :=
  let file_id :=
    match fileId with
    | some i => if i = "" then basename file_path else i
    | none => basename file_path
  let r0 : Results :=
    { file_path := file_path
      file_id := file_id
      timestamp := env.now
      status := "processing"
      steps_completed := []
      errors := []
      file_hash := none
      extracted_text := none
      explanation := none
      certificate := none
      certificate_html := none }
  match env.hashFile with
  | .error e =>
    let r := { r0 with status := "failed", errors := r0.errors ++ ["PIPELINE_ERROR: " ++ e] }
    (r, storeInsert file_id r st)
  | .ok file_hash =>
    let r1 := { r0 with file_hash := some file_hash
                        steps_completed := r0.steps_completed ++ ["hash_generation"] }
    let t := env.extract_text
    let r2 : Results :=
      if t = "" ∨ (strip t.data).length < 20 then
        { r1 with errors := r1.errors ++ ["OCR_EXTRACTION_FAILED"] }
      else
        { r1 with extracted_text := some t
                  steps_completed := r1.steps_completed ++ ["ocr"] }
    let r3 : Results :=
      if "ocr" ∈ r2.steps_completed then
        let e := explain_text env.hasApiKey env.backends t
        if e ≠ "" then
          { r2 with explanation := some e
                    steps_completed := r2.steps_completed ++ ["analysis"] }
        else { r2 with errors := r2.errors ++ ["AI_ANALYSIS_FAILED"] }
      else r2
    let r4 : Results :=
      if "analysis" ∈ r3.steps_completed then
        let cert := generate_certificate env.certUuid env.utcNow t file_hash none r3.explanation
        { r3 with certificate := some cert
                  certificate_html := some (generate_certificate_html cert)
                  steps_completed := r3.steps_completed ++ ["certificate"] }
      else r3
    let r5 : Results :=
      if r4.errors ≠ [] then { r4 with status := "completed_with_errors" }
      else { r4 with status := "completed" }
    (r5, storeInsert file_id r5 st)

/-- Concrete fixture: a backend narrative longer than 100 characters
that deduplication and canonicalization leave unchanged. -/
def okLong : String :=
  "This medical report describes a routine examination with unremarkable findings and no cause for concern at this time."

/-- Concrete fixture: an environment in which every stage succeeds — the
file is read and hashed, OCR yields labelled text well above the
20-character threshold, and the primary backend returns a narrative
longer than 100 characters. -/
def envOk : Env where
  hashFile := .ok "abcdef0123456789abcdef0123456789abcdef0123456789abcdef0123456789"
  extract_text := "Patient: Maria Lopez Garcia Diagnosis: Pneumonia"
  hasApiKey := true
  backends := [some okLong]
  certUuid := "AB12CD34"
  utcNow := "2025-01-02 03:04:05 UTC"
  now := "2025-01-02 03:04:05"

/-- Concrete fixture: the extractor returns `"ab cd ef gh ij kl mn"`,
which has only 14 non-whitespace characters but is 20 characters long
after stripping. -/
def envShortStrip : Env :=
  { envOk with extract_text := "ab cd ef gh ij kl mn", backends := [] }

/-- Concrete fixture: the extractor returns text that is shorter than 20
characters after stripping. -/
def envOcrFail : Env :=
  { envOk with extract_text := "   tiny text   " }

/-- Concrete fixture: opening or reading the file raises. -/
def envHashFail : Env :=
  { envOk with hashFile := .error "No such file or directory" }

/-- Concrete fixture: a backend result of exactly 100 characters that
deduplication and canonicalization leave unchanged. -/
def s100 : String := ⟨List.replicate 99 'a' ++ ['.']⟩

/-- Concrete fixture: an extracted text of exactly 20 characters. -/
def t20 : String := "aaaaaaaaaaaaaaaaaaaa"

/-- Concrete fixture: a narrative with two occurrences of the
third-section heading. -/
def twoHeadings : String :=
  "<h2>Recommended next steps</h2>A<h2>Recommended next steps</h2>B"

/-- Concrete fixture for idempotence: the double space makes the second
`alpha  bee.` sentence long enough to be split off on the first pass but,
once whitespace is collapsed, too short to end a sentence on the second
pass, so a second application merges it with its successor and discards
the merged sentence as a near-duplicate. -/
def nonIdem : String := "alpha bee. cc dd ee. alpha  bee. cc dd ee. zzzzz."

/-- Concrete fixture: a single-space, bracket-free text on which the
eliminator removes a duplicate sentence. -/
def goodFix : String :=
  "this is sentence one. this is sentence one. unrelated closing words here."

/-! ### Predicates for the idempotence analysis of the eliminator -/

/-- Whitespace discipline under which the eliminator's whitespace
normalisation is the identity: every whitespace character is a plain
space and no two whitespace characters are adjacent. -/
def goodChars (l : List Char) : Prop :=
  (∀ c ∈ l, isWS c = true → c = ' ') ∧ l.Chain' (fun a b => ¬ (isWS a = true ∧ isWS b = true))

/-- Inputs on which the string-level eliminator is idempotent: disciplined
whitespace and no angle brackets (so tag stripping and header spacing are
inert). -/
def goodText (l : List Char) : Prop := goodChars l ∧ '<' ∉ l

/-- Boolean checker for the no-adjacent-whitespace chain condition. -/
def chainOkB : List Char → Bool
  | [] => true
  | [_] => true
  | a :: b :: rest => (!(isWS a && isWS b)) && chainOkB (b :: rest)

/-- Boolean checker for `goodChars`. -/
def goodCharsB (l : List Char) : Bool :=
  (l.all fun c => !isWS c || c == ' ') && chainOkB l

/-- Boolean checker for `goodText`. -/
def goodTextB (l : List Char) : Bool :=
  goodCharsB l && l.all fun c => !(c == '<')

/-- The head of the list, if any, is not whitespace. -/
def headNWS (l : List Char) : Prop := ∀ c, l.head? = some c → isWS c = false

/-- The last element of the list, if any, is not whitespace. -/
def lastNWS (l : List Char) : Prop := ∀ c, l.getLast? = some c → isWS c = false

/-- Invariants every sentence produced by the splitting pass satisfies on
a good text: non-empty, fixed by `strip`, disciplined whitespace, no
angle brackets. -/
def SentInv (s : List Char) : Prop :=
  s ≠ [] ∧ strip s = s ∧ goodChars s ∧ '<' ∉ s

/-- No proper prefix of the sentence ends the sentence early: at every
terminal-punctuation character except possibly the last, the prefix up to
and including it has at most 10 characters. -/
def noInnerBreak (s : List Char) : Prop :=
  ∀ p c q, s = p ++ c :: q → q ≠ [] → isPunct c = true → p.length + 1 ≤ 10

/-- A boundary sentence: ends with terminal punctuation, longer than 10
characters, no earlier break point. -/
def BSent (s : List Char) : Prop :=
  SentInv s ∧ noInnerBreak s ∧ ∃ p c, s = p ++ [c] ∧ isPunct c = true ∧ 10 < s.length

/-- A trailing fragment: no position at all reaches the break condition. -/
def FragSent (s : List Char) : Prop :=
  SentInv s ∧ ∀ p c q, s = p ++ c :: q → isPunct c = true → p.length + 1 ≤ 10

/-- Shape of a sentence list produced by the splitting pass: boundary
sentences followed by at most one trailing fragment. -/
inductive Shape : List (List Char) → Prop
  | nil : Shape []
  | frag (s : List Char) : FragSent s → Shape [s]
  | bsent (s : List Char) (S : List (List Char)) : BSent s → Shape S → Shape (s :: S)

/-! ### Shared lemmas -/

theorem storeGet_storeInsert (k : String) (v : Results) (st : Store) :
    storeGet (storeInsert k v st) k = some v := by
  unfold storeGet storeInsert
  simp [List.find?]

theorem generate_simple_fallback_ne_empty (t : String) :
    generate_simple_fallback t ≠ "" := by
  intro h
  have h1 := congrArg String.length h
  rw [generate_simple_fallback, String.length_append, String.length_append] at h1
  have h2 : fallbackPart1.length ≠ 0 := by decide
  have h0 : ("" : String).length = 0 := rfl
  omega

theorem firstSuccess_all_none {bs : List (Option String)}
    (h : ∀ b ∈ bs, b = none) : firstSuccess bs = none := by
  induction bs with
  | nil => rfl
  | cons b rest ih =>
    have hb := h b (by simp)
    subst hb
    exact ih (fun x hx => h x (by simp [hx]))

theorem firstSuccess_pre_none {pre : List (Option String)} (s : String)
    (post : List (Option String)) (h : ∀ b ∈ pre, b = none) :
    firstSuccess (pre ++ some s :: post) = some s := by
  induction pre with
  | nil => rfl
  | cons b rest ih =>
    have hb := h b (by simp)
    subst hb
    exact ih (fun x hx => h x (by simp [hx]))

theorem explain_text_ne_empty (key : Bool) (bs : List (Option String)) (t : String) :
    explain_text key bs t ≠ "" := by
  unfold explain_text
  split
  · decide
  · dsimp only
    split
    · decide
    · split
      · split
        · split
          · rename_i s hs hlen
            intro h
            rw [h] at hlen
            simp [String.length] at hlen
          · exact generate_simple_fallback_ne_empty _
        · exact generate_simple_fallback_ne_empty _
      · exact generate_simple_fallback_ne_empty _

/-! ### Claim theorems -/

/-- C9: for every document text, `extract_medical_codes` returns an
ICD-10 list and a CPT list each capped at 5 entries, and if the text
holds any MM/DD/YYYY-shaped date anywhere then the CPT list is empty —
no 5-digit token of the document is classified as CPT, regardless of
its position relative to the date. -/
theorem claim9_code_caps_and_date_guard (text : String) :
    (extract_medical_codes text).icd10.length ≤ 5 ∧
    (extract_medical_codes text).cpt.length ≤ 5 ∧
    (hasDate text.data = true → (extract_medical_codes text).cpt = []) := by
  unfold extract_medical_codes
  refine ⟨?_, ?_, ?_⟩
  · simp only [List.length_map, List.length_take]
    omega
  · simp only [List.length_map, List.length_take]
    omega
  · intro h
    simp [h]

/-- Witness for C9 at a concrete document holding both a date and a
5-digit code that is not adjacent to it. -/
theorem claim9_witness :
    hasDate "Visit 01/02/2023 and later code 99213 for A01.1".data = true ∧
    (extract_medical_codes "Visit 01/02/2023 and later code 99213 for A01.1").cpt = [] ∧
    (extract_medical_codes "Visit 01/02/2023 and later code 99213 for A01.1").icd10.length ≤ 5 := by
  have h := claim9_code_caps_and_date_guard "Visit 01/02/2023 and later code 99213 for A01.1"
  exact ⟨by decide, h.2.2 (by decide), h.1⟩

/-- C10: in the deduplication loop, a sentence whose normalised form is
shorter than 15 characters is retained unconditionally and its
normalised form is never recorded as a comparison key, so the loop state
is unchanged; consequently an exact duplicate of such a short sentence
is also retained, and no later sentence can be discarded for overlapping
with a short one (the key set gains nothing from it). -/
theorem claim10_short_sentences_kept (seen rest : List (List Char)) (s : List Char)
    (h15 : (cleanSentence s).length < 15) :
    dedupRun seen (s :: rest) = s :: dedupRun seen rest ∧
    dedupRun seen (s :: s :: rest) = s :: s :: dedupRun seen rest := by
  have h1 : ∀ r, dedupRun seen (s :: r) = s :: dedupRun seen r := by
    intro r
    rw [dedupRun, if_pos h15]
  exact ⟨h1 rest, by rw [h1 (s :: rest), h1 rest]⟩

/-- Witness for C10 at a concrete short sentence. -/
theorem claim10_witness :
    (cleanSentence "hi all.".data).length < 15 ∧
    dedupRun [] ["hi all.".data] = ["hi all.".data] ∧
    dedupRun [] ["hi all.".data, "hi all.".data] =
      ["hi all.".data, "hi all.".data] := by
  have h := claim10_short_sentences_kept [] [] "hi all.".data (by decide)
  exact ⟨by decide, h.1, h.2⟩

/-- C6: in the deduplication loop, a sentence (of comparison length) is
discarded exactly when some stored key exceeds the strict 0.8 overlap
threshold: a key whose overlap is exactly 4/5 never triggers the
discard, while any key with non-empty word sets and overlap strictly
above 4/5 does. -/
theorem claim6_overlap_boundary (seen rest : List (List Char)) (s : List Char)
    (h15 : ¬ (cleanSentence s).length < 15) :
    ((∀ k ∈ seen, ¬ isDupOf (cleanSentence s) k) →
      dedupRun seen (s :: rest) =
        s :: dedupRun (addKey seen (cleanSentence s)) rest) ∧
    ((∃ k ∈ seen, isDupOf (cleanSentence s) k) →
      dedupRun seen (s :: rest) = dedupRun seen rest) ∧
    (∀ k, overlapQ (cleanSentence s) k = 4 / 5 → ¬ isDupOf (cleanSentence s) k) ∧
    (∀ k, 0 < (wordSet (cleanSentence s)).length → 0 < (wordSet k).length →
      4 / 5 < overlapQ (cleanSentence s) k → isDupOf (cleanSentence s) k) := by
  refine ⟨?_, ?_, ?_, ?_⟩
  · intro hnone
    have hne : ¬ ∃ k ∈ seen, isDupOf (cleanSentence s) k := by
      rintro ⟨k, hk, hd⟩
      exact hnone k hk hd
    rw [dedupRun, if_neg h15, if_neg hne]
  · intro hex
    rw [dedupRun, if_neg h15, if_pos hex]
  · intro k heq hd
    have hlt := hd.2.2
    rw [heq] at hlt
    exact lt_irrefl _ hlt
  · intro k h1 h2 h3
    exact ⟨h1, h2, h3⟩

/-- Witness for C6: against the key `alpha bravo carlo delta xrayz` the
sentence `alpha bravo carlo delta echoz` has overlap exactly 4/5 and is
retained; against the key `alpha bravo carlo delta` its overlap is 1 and
it is discarded. -/
theorem claim6_witness :
    ¬ (cleanSentence "alpha bravo carlo delta echoz".data).length < 15 ∧
    dedupRun ["alpha bravo carlo delta xrayz".data]
        ["alpha bravo carlo delta echoz".data] =
      ["alpha bravo carlo delta echoz".data] ∧
    dedupRun ["alpha bravo carlo delta".data]
        ["alpha bravo carlo delta echoz".data] = [] := by
  have h1 := claim6_overlap_boundary ["alpha bravo carlo delta xrayz".data] []
    "alpha bravo carlo delta echoz".data (by decide)
  have h2 := claim6_overlap_boundary ["alpha bravo carlo delta".data] []
    "alpha bravo carlo delta echoz".data (by decide)
  exact ⟨by decide, h1.1 (by decide), h2.2.1 (by decide)⟩

/-- C1: `process_report` is total (the embedding returns a result for
every environment), and when the one raising operation of the stage
sequence — reading and hashing the input file — raises, the top-level
handler marks the run `failed`, appends an error wrapping the original
message after the `PIPELINE_ERROR: ` tag, and still stores the partial
result under `file_id` instead of discarding it. -/
theorem claim1_pipeline_error_wrapped_and_stored (env : Env) (st : Store)
    (p fid e : String) (hfid : fid ≠ "") (h : env.hashFile = .error e) :
    (process_report env st p (some fid)).1.status = "failed" ∧
    ("PIPELINE_ERROR: " ++ e) ∈ (process_report env st p (some fid)).1.errors ∧
    storeGet (process_report env st p (some fid)).2 fid =
      some (process_report env st p (some fid)).1 := by
  unfold process_report
  rw [h]
  refine ⟨?_, ?_, ?_⟩
  · simp [hfid]
  · simp [hfid]
  · simp only [if_neg hfid]
    exact storeGet_storeInsert _ _ _

/-- Witness for C1 at a concrete failing environment. -/
theorem claim1_witness :
    (process_report envHashFail [] "uploads/f.png" (some "fid")).1.status = "failed" ∧
    ("PIPELINE_ERROR: " ++ "No such file or directory") ∈
      (process_report envHashFail [] "uploads/f.png" (some "fid")).1.errors ∧
    storeGet (process_report envHashFail [] "uploads/f.png" (some "fid")).2 "fid" =
      some (process_report envHashFail [] "uploads/f.png" (some "fid")).1 :=
  claim1_pipeline_error_wrapped_and_stored envHashFail [] "uploads/f.png" "fid"
    "No such file or directory" (by decide) rfl

/-- C3 counterexample: the claim keys extraction failure on "fewer than
20 non-whitespace characters", but the code tests
`len(extracted_text.strip()) < 20`, which counts interior whitespace.
The extracted text `"ab cd ef gh ij kl mn"` has only 14 non-whitespace
characters, yet the run records no `OCR_EXTRACTION_FAILED`, keeps the
extracted text, and completes. -/
theorem claim3_counterexample :
    (envShortStrip.extract_text.data.filter (fun c => ¬ isWS c)).length = 14 ∧
    "OCR_EXTRACTION_FAILED" ∉
      (process_report envShortStrip [] "uploads/f.png" (some "fid")).1.errors ∧
    (process_report envShortStrip [] "uploads/f.png" (some "fid")).1.status =
      "completed" ∧
    (process_report envShortStrip [] "uploads/f.png" (some "fid")).1.extracted_text =
      some "ab cd ef gh ij kl mn" := by
  refine ⟨by decide, ?_, ?_, ?_⟩ <;> decide

/-- C3 as amended: when the extracted text is empty or shorter than 20
characters after stripping leading and trailing whitespace (the test the
code actually performs), the run ends `completed_with_errors` (hence not
`completed`), the errors list is exactly `[OCR_EXTRACTION_FAILED]`, only
the hash step completed, and the extracted-text and certificate payloads
are absent — analysis and certificate were skipped, not attempted and
not marked as errored. -/
theorem claim3_amended (env : Env) (st : Store) (p fid h : String)
    (hfid : fid ≠ "") (hh : env.hashFile = .ok h)
    (hshort : env.extract_text = "" ∨ (strip env.extract_text.data).length < 20) :
    (process_report env st p (some fid)).1.status = "completed_with_errors" ∧
    (process_report env st p (some fid)).1.errors = ["OCR_EXTRACTION_FAILED"] ∧
    (process_report env st p (some fid)).1.steps_completed = ["hash_generation"] ∧
    (process_report env st p (some fid)).1.extracted_text = none ∧
    (process_report env st p (some fid)).1.certificate = none ∧
    (process_report env st p (some fid)).1.certificate_html = none := by
  unfold process_report
  rw [hh]
  simp only [if_neg hfid, if_pos hshort]
  simp +decide

/-- Witness for the amended C3 at a concrete environment whose extractor
returns `"   tiny text   "`. -/
theorem claim3_witness :
    (process_report envOcrFail [] "uploads/f.png" (some "fid")).1.status =
      "completed_with_errors" ∧
    (process_report envOcrFail [] "uploads/f.png" (some "fid")).1.errors =
      ["OCR_EXTRACTION_FAILED"] ∧
    (process_report envOcrFail [] "uploads/f.png" (some "fid")).1.steps_completed =
      ["hash_generation"] ∧
    (process_report envOcrFail [] "uploads/f.png" (some "fid")).1.extracted_text = none ∧
    (process_report envOcrFail [] "uploads/f.png" (some "fid")).1.certificate = none ∧
    (process_report envOcrFail [] "uploads/f.png" (some "fid")).1.certificate_html = none :=
  claim3_amended envOcrFail [] "uploads/f.png" "fid"
    "abcdef0123456789abcdef0123456789abcdef0123456789abcdef0123456789"
    (by decide) rfl (by decide)

/-- C2 counterexample: in a run where every stage succeeds (the claim's
hypotheses hold: the extractor returns well over 20 usable characters
and the primary backend call succeeds), the recorded step list is
`[hash_generation, ocr, analysis, certificate]` — the second entry is
the literal string `ocr`, not `extraction` as the claim states. -/
theorem claim2_counterexample :
    firstSuccess envOk.backends = some okLong ∧
    ¬ (envOk.extract_text = "" ∨ (strip envOk.extract_text.data).length < 20) ∧
    (process_report envOk [] "uploads/f.png" (some "fid")).1.status = "completed" ∧
    (process_report envOk [] "uploads/f.png" (some "fid")).1.steps_completed ≠
      ["hash_generation", "extraction", "analysis", "certificate"] ∧
    (process_report envOk [] "uploads/f.png" (some "fid")).1.steps_completed =
      ["hash_generation", "ocr", "analysis", "certificate"] := by
  refine ⟨by decide, by decide, by decide, by decide, by decide⟩

/-- C2 as amended: when hashing succeeds, the extractor returns text of
at least 20 characters after stripping, and some backend call succeeds,
the run completes with status `completed`, no errors, and the ordered
step list `[hash_generation, ocr, analysis, certificate]` (the source
records the extraction step under the name `ocr`). -/
theorem claim2_amended (env : Env) (st : Store) (p fid h s : String)
    (hfid : fid ≠ "") (hh : env.hashFile = .ok h)
    (ht : ¬ (env.extract_text = "" ∨ (strip env.extract_text.data).length < 20))
    (hb : firstSuccess env.backends = some s) :
    (process_report env st p (some fid)).1.status = "completed" ∧
    (process_report env st p (some fid)).1.steps_completed =
      ["hash_generation", "ocr", "analysis", "certificate"] ∧
    (process_report env st p (some fid)).1.errors = [] := by
  clear hb
  unfold process_report
  rw [hh]
  simp only [if_neg hfid, if_neg ht]
  simp +decide [explain_text_ne_empty]

/-- Witness for the amended C2 at a concrete all-success environment. -/
theorem claim2_witness :
    (process_report envOk [] "uploads/f.png" (some "fid")).1.status = "completed" ∧
    (process_report envOk [] "uploads/f.png" (some "fid")).1.steps_completed =
      ["hash_generation", "ocr", "analysis", "certificate"] ∧
    (process_report envOk [] "uploads/f.png" (some "fid")).1.errors = [] :=
  claim2_amended envOk [] "uploads/f.png" "fid"
    "abcdef0123456789abcdef0123456789abcdef0123456789abcdef0123456789" okLong
    (by decide) rfl (by decide) rfl

/-- C4: when the input text is usable (at least 20 characters after
stripping, and cleaning leaves it non-empty) and every backend in the
fallback chain raises, `explain_text` returns exactly the deterministic
fallback template applied to the cleaned text — which mentions its
character count and is never the empty string — whether or not an API
key is configured; the embedding is a total function, so no exception
can escape. -/
theorem claim4_total_backend_failure_falls_back (key : Bool)
    (bs : List (Option String)) (t : String)
    (h20 : ¬ (t = "" ∨ (strip t.data).length < 20))
    (hcl : (⟨cleanTextL t.data⟩ : String) ≠ "")
    (hfail : ∀ b ∈ bs, b = none) :
    explain_text key bs t = generate_simple_fallback ⟨cleanTextL t.data⟩ ∧
    generate_simple_fallback ⟨cleanTextL t.data⟩ ≠ "" := by
  refine ⟨?_, generate_simple_fallback_ne_empty _⟩
  unfold explain_text
  rw [if_neg h20]
  dsimp only
  rw [if_neg hcl]
  have hnone : generate_llm_summary bs ⟨(cleanTextL t.data).take 8000⟩ = none := by
    rw [generate_llm_summary, firstSuccess_all_none hfail]
    rfl
  cases key
  · rfl
  · simp only [Bool.true_eq, if_true, hnone]

/-- Witness for C4 at a concrete usable text with all three backends
raising. -/
theorem claim4_witness :
    explain_text true [none, none, none] t20 = generate_simple_fallback t20 ∧
    generate_simple_fallback t20 ≠ "" :=
  claim4_total_backend_failure_falls_back true [none, none, none] t20
    (by decide) (by decide) (by decide)

/-- C5 counterexample: a backend result whose deduplicated and
canonicalized form has exactly 100 characters is NOT returned as the
narrative — the code requires strictly more than 100 characters
(`len(llm_summary) > 100`), so at exactly 100 the deterministic template
is returned instead, refuting the claim's "at least 100 characters is
returned as the narrative". -/
theorem claim5_counterexample :
    (ensure_proper_ending (remove_duplicate_content s100)).length = 100 ∧
    explain_text true [some s100] t20 = generate_simple_fallback t20 ∧
    explain_text true [some s100] t20 ≠
      ensure_proper_ending (remove_duplicate_content s100) := by
  refine ⟨by decide, by decide, by decide⟩

/-- C5 as amended: for a usable input text and a fallback chain whose
first successful backend returns `s` (every earlier backend raised), the
chain returns the deterministic template exactly when the deduplicated,
canonicalized result has at most 100 characters (the code's strict
`> 100` test, not the claim's `≥ 100`); a result of strictly more than
100 characters is returned as the narrative, equal to the deduplicated,
canonicalized backend output; and the backends after the first success
are never consulted — the result does not depend on them. -/
theorem claim5_amended (pre post : List (Option String)) (s t : String)
    (h20 : ¬ (t = "" ∨ (strip t.data).length < 20))
    (hcl : (⟨cleanTextL t.data⟩ : String) ≠ "")
    (hpre : ∀ b ∈ pre, b = none) :
    ((ensure_proper_ending (remove_duplicate_content s)).length ≤ 100 →
      explain_text true (pre ++ some s :: post) t =
        generate_simple_fallback ⟨cleanTextL t.data⟩) ∧
    (100 < (ensure_proper_ending (remove_duplicate_content s)).length →
      explain_text true (pre ++ some s :: post) t =
        ensure_proper_ending (remove_duplicate_content s)) ∧
    (∀ post2, explain_text true (pre ++ some s :: post2) t =
      explain_text true (pre ++ some s :: post) t) := by
  have hsum : ∀ post2 : List (Option String),
      generate_llm_summary (pre ++ some s :: post2) ⟨(cleanTextL t.data).take 8000⟩ =
        some (ensure_proper_ending (remove_duplicate_content s)) := by
    intro post2
    rw [generate_llm_summary, firstSuccess_pre_none s post2 hpre]
    rfl
  have hmain : ∀ post2 : List (Option String),
      explain_text true (pre ++ some s :: post2) t =
        if 100 < (ensure_proper_ending (remove_duplicate_content s)).length then
          ensure_proper_ending (remove_duplicate_content s)
        else generate_simple_fallback ⟨cleanTextL t.data⟩ := by
    intro post2
    unfold explain_text
    rw [if_neg h20]
    dsimp only
    rw [if_neg hcl]
    simp only [Bool.true_eq, if_true, hsum post2]
  refine ⟨?_, ?_, ?_⟩
  · intro hle
    rw [hmain post, if_neg (by omega)]
  · intro hgt
    rw [hmain post, if_pos hgt]
  · intro post2
    rw [hmain post, hmain post2]

/-- Witness for the amended C5: with a primary backend that raises and a
secondary whose processed result exceeds 100 characters, the narrative
equals that processed result; with a short secondary result the template
is returned. -/
theorem claim5_witness :
    explain_text true [none, some okLong] t20 =
      ensure_proper_ending (remove_duplicate_content okLong) ∧
    explain_text true [none, some "short one."] t20 = generate_simple_fallback t20 := by
  have h1 := claim5_amended [none] [] okLong t20 (by decide) (by decide) (by decide)
  have h2 := claim5_amended [none] [] "short one." t20 (by decide) (by decide) (by decide)
  exact ⟨h1.2.1 (by decide), h2.1 (by decide)⟩

theorem parseHeadingAt_nil : parseHeadingAt [] = none := by decide

theorem epeSearch_eq_none {l : List Char}
    (h : ∀ n < l.length, parseHeadingAt (l.drop n) = none) : epeSearch l = none := by
  induction l with
  | nil => rfl
  | cons c rest ih =>
    have h0 : parseHeadingAt (c :: rest) = none := by
      simpa using h 0 (by simp)
    rw [epeSearch, h0]
    show (epeSearch rest).map _ = _
    rw [ih (fun n hn => by simpa using h (n + 1) (by simpa using Nat.succ_lt_succ hn))]
    rfl

theorem epeSearch_leftmost {l : List Char} {n : ℕ} {h r : List Char}
    (hm : parseHeadingAt (l.drop n) = some (h, r))
    (hmin : ∀ m < n, parseHeadingAt (l.drop m) = none) :
    epeSearch l = some (l.take n, h ++ lazyCapture r) := by
  induction l generalizing n with
  | nil =>
    rw [List.drop_nil, parseHeadingAt_nil] at hm
    cases hm
  | cons c rest ih =>
    cases n with
    | zero =>
      rw [List.drop_zero] at hm
      rw [epeSearch, hm]
      rfl
    | succ n =>
      have h0 : parseHeadingAt (c :: rest) = none := by
        simpa using hmin 0 (Nat.succ_pos n)
      rw [epeSearch, h0]
      show (epeSearch rest).map _ = _
      rw [ih (by simpa using hm)
        (fun m hmn => by simpa using hmin (m + 1) (Nat.succ_lt_succ hmn))]
      rfl

/-- C7 counterexample: on a narrative with two occurrences of the
third-section heading, `ensure_proper_ending` keeps the FIRST heading's
block and drops everything from the second heading on — `re.search`
finds the leftmost match, not the last occurrence the claim describes
(under which everything before the second heading would be kept
verbatim and the result would be the whole string). -/
theorem claim7_counterexample :
    ensure_proper_ending twoHeadings = "<h2>Recommended next steps</h2>A" ∧
    (parseHeadingAt (twoHeadings.data.drop 32)).isSome = true ∧
    ensure_proper_ending twoHeadings ≠ twoHeadings := by
  refine ⟨by decide, by decide, by decide⟩

/-- C7 as amended: `ensure_proper_ending` locates the FIRST occurrence
of the fixed third-section heading (case-insensitively), keeps
everything before it plus that heading's content up to the next heading
or end of string, drops everything after, and strips surrounding
whitespace from the result; when the heading matches at no position the
input is returned completely unchanged. -/
theorem claim7_amended (s : String) :
    ((∀ n < s.data.length, parseHeadingAt (s.data.drop n) = none) →
      ensure_proper_ending s = s) ∧
    (∀ n h r, parseHeadingAt (s.data.drop n) = some (h, r) →
      (∀ m < n, parseHeadingAt (s.data.drop m) = none) →
      ensure_proper_ending s = ⟨strip (s.data.take n ++ h ++ lazyCapture r)⟩) := by
  constructor
  · intro hnone
    unfold ensure_proper_ending
    split
    · rfl
    · rw [epeSearch_eq_none hnone]
  · intro n h r hm hmin
    unfold ensure_proper_ending
    split
    · rename_i hs
      rw [hs] at hm
      exfalso
      have : parseHeadingAt (([] : List Char).drop n) = some (h, r) := hm
      rw [List.drop_nil, parseHeadingAt_nil] at this
      cases this
    · rw [epeSearch_leftmost hm hmin]
      simp [List.append_assoc]

/-- Witness for the amended C7: a heading-free narrative is returned
unchanged, and a narrative whose heading matches at position 0 is
trimmed to that heading's block. -/
theorem claim7_witness :
    ensure_proper_ending "no heading here at all" = "no heading here at all" ∧
    ensure_proper_ending twoHeadings = "<h2>Recommended next steps</h2>A" := by
  have h1 := (claim7_amended "no heading here at all").1 (by decide)
  have h2 := (claim7_amended twoHeadings).2 0 "<h2>Recommended next steps</h2>".data
    "A<h2>Recommended next steps</h2>B".data (by decide) (by omega)
  exact ⟨h1, h2.trans (by decide)⟩

theorem isPunct_not_ws {c : Char} (h : isPunct c = true) : isWS c = false := by
  unfold isPunct at h
  simp only [Bool.or_eq_true, decide_eq_true_eq] at h
  rcases h with (h | h) | h <;> subst h <;> decide

theorem allWS_trimLeft_append {w l : List Char} (h : ∀ c ∈ w, isWS c = true) :
    trimLeft (w ++ l) = trimLeft l := by
  induction w with
  | nil => rfl
  | cons a w ih =>
    unfold trimLeft at *
    rw [List.cons_append, List.dropWhile_cons, if_pos (by simp [h a (by simp)])]
    exact ih (fun c hc => h c (by simp [hc]))

theorem trimLeft_eq_self {l : List Char} (h : headNWS l) : trimLeft l = l := by
  cases l with
  | nil => rfl
  | cons a l =>
    unfold trimLeft
    rw [List.dropWhile_cons, if_neg (by simp [h a rfl])]

theorem headNWS_trimLeft (l : List Char) : headNWS (trimLeft l) := by
  induction l with
  | nil => intro c hc; cases hc
  | cons a l ih =>
    unfold trimLeft at *
    rw [List.dropWhile_cons]
    by_cases ha : isWS a = true
    · rw [if_pos (by simp [ha])]
      exact ih
    · rw [if_neg (by simp [ha])]
      intro c hc
      simp only [List.head?_cons, Option.some.injEq] at hc
      subst hc
      simpa using ha

theorem trimRight_eq_self {l : List Char} (h : lastNWS l) : trimRight l = l := by
  unfold trimRight
  have hrev : headNWS l.reverse := by
    intro c hc
    exact h c (by rwa [List.head?_reverse] at hc)
  rw [show l.reverse.dropWhile isWS = trimLeft l.reverse from rfl,
    trimLeft_eq_self hrev, List.reverse_reverse]

theorem headNWS_nil : headNWS [] := by
  intro c hc
  cases hc

theorem lastNWS_trimRight (l : List Char) : lastNWS (trimRight l) := by
  intro c hc
  unfold trimRight at hc
  rw [List.getLast?_reverse] at hc
  exact headNWS_trimLeft l.reverse c hc

theorem headNWS_append_left {a b : List Char} (ha : headNWS a) (hb : headNWS b) :
    headNWS (a ++ b) := by
  cases a with
  | nil => simpa using hb
  | cons x xs =>
    intro c hc
    simp only [List.cons_append, List.head?_cons, Option.some.injEq] at hc
    subst hc
    exact ha x rfl

theorem headNWS_trimRight {l : List Char} (h : headNWS l) : headNWS (trimRight l) := by
  intro c hc
  have hd : trimRight l ≠ [] := by
    intro he
    rw [he] at hc
    cases hc
  have hdec : l = trimRight l ++ (l.reverse.takeWhile isWS).reverse := by
    unfold trimRight
    rw [← List.reverse_append, List.takeWhile_append_dropWhile]
    · exact (List.reverse_reverse l).symm
  apply h
  rw [hdec, List.head?_append_of_ne_nil _ hd]
  exact hc

theorem strip_eq_self {l : List Char} (h1 : headNWS l) (h2 : lastNWS l) : strip l = l := by
  unfold strip
  rw [trimLeft_eq_self h1, trimRight_eq_self h2]

theorem strip_append_allWS {w l : List Char} (h : ∀ c ∈ w, isWS c = true) :
    strip (w ++ l) = strip l := by
  unfold strip
  rw [allWS_trimLeft_append h]

theorem headNWS_strip (l : List Char) : headNWS (strip l) :=
  headNWS_trimRight (headNWS_trimLeft l)

theorem lastNWS_strip (l : List Char) : lastNWS (strip l) :=
  lastNWS_trimRight (trimLeft l)

theorem strip_idem (l : List Char) : strip (strip l) = strip l :=
  strip_eq_self (headNWS_strip l) (lastNWS_strip l)

theorem strip_decomp (l : List Char) :
    ∃ w1 w2, (∀ c ∈ w1, isWS c = true) ∧ (∀ c ∈ w2, isWS c = true) ∧
      l = w1 ++ strip l ++ w2 := by
  refine ⟨l.takeWhile isWS, ((trimLeft l).reverse.takeWhile isWS).reverse, ?_, ?_, ?_⟩
  · intro c hc
    exact List.mem_takeWhile_imp hc
  · intro c hc
    exact List.mem_takeWhile_imp (by simpa using hc)
  · conv_lhs => rw [← List.takeWhile_append_dropWhile (p := isWS) (l := l)]
    unfold strip trimRight
    rw [List.append_assoc]
    congr 1
    rw [← List.reverse_append, List.takeWhile_append_dropWhile, List.reverse_reverse]
    rfl

theorem goodChars_append_left {a b : List Char} (h : goodChars (a ++ b)) : goodChars a := by
  obtain ⟨h1, h2⟩ := h
  exact ⟨fun c hc => h1 c (by simp [hc]), (List.chain'_append.mp h2).1⟩

theorem goodChars_append_right {a b : List Char} (h : goodChars (a ++ b)) : goodChars b := by
  obtain ⟨h1, h2⟩ := h
  exact ⟨fun c hc => h1 c (by simp [hc]), (List.chain'_append.mp h2).2.1⟩

theorem goodChars_strip {l : List Char} (h : goodChars l) : goodChars (strip l) := by
  obtain ⟨w1, w2, -, -, hd⟩ := strip_decomp l
  rw [hd, List.append_assoc] at h
  exact goodChars_append_left (goodChars_append_right h)

theorem not_mem_strip {l : List Char} {c : Char} (h : c ∉ l) : c ∉ strip l := by
  obtain ⟨w1, w2, -, -, hd⟩ := strip_decomp l
  intro hc
  exact h (by rw [hd]; simp [hc])

theorem collapseGo_eq_self {l : List Char} (h : goodChars l) :
    ∀ prev, (prev = true → headNWS l) → collapseGo prev l = l := by
  induction l with
  | nil => intro prev _; rfl
  | cons a l ih =>
    intro prev hprev
    unfold collapseGo
    by_cases ha : isWS a = true
    · have hsp : a = ' ' := h.1 a (by simp) ha
      have hprev' : prev = false := by
        cases prev
        · rfl
        · exact absurd ha (by simpa using hprev rfl a rfl)
      subst hprev'
      rw [if_pos (by simp [ha])]
      have hl : goodChars l := goodChars_append_right (a := [a]) (by simpa using h)
      have hh : headNWS l := by
        intro c hc
        cases l with
        | nil => cases hc
        | cons b l2 =>
          simp only [List.head?_cons, Option.some.injEq] at hc
          subst hc
          have := List.chain'_cons.mp h.2
          by_contra hb
          exact this.1 ⟨ha, by simpa using hb⟩
      rw [ih hl true (fun _ => hh), hsp]
      simp
    · rw [if_neg (by simp [ha])]
      have hl : goodChars l := goodChars_append_right (a := [a]) (by simpa using h)
      rw [ih hl false (by simp)]

theorem collapseWS_eq_self {l : List Char} (h : goodChars l) : collapseWS l = l :=
  collapseGo_eq_self h false (by simp)

theorem untagGo_none_eq_self {l : List Char} (h : '<' ∉ l) : untagGo none l = l := by
  induction l with
  | nil => rfl
  | cons a l ih =>
    unfold untagGo
    rw [if_neg (by intro hc; exact h (by simp [hc]))]
    rw [ih (fun hc => h (by simp [hc]))]

theorem untag_eq_self {l : List Char} (h : '<' ∉ l) : untag l = l :=
  untagGo_none_eq_self h

theorem parseH2Block_none_of_no_lt {l : List Char} (h : '<' ∉ l) :
    parseH2Block l = none := by
  unfold parseH2Block
  rw [if_neg]
  intro heq
  apply h
  have h3 : '<' ∈ l.take 3 := by rw [heq]; simp
  exact List.take_subset 3 l h3

theorem parseH2Pair_none_of_no_lt {l : List Char} (h : '<' ∉ l) :
    parseH2Pair l = none := by
  unfold parseH2Pair
  rw [parseH2Block_none_of_no_lt h]
  rfl

theorem headerSubF_eq_self : ∀ (fuel : ℕ) (l : List Char), '<' ∉ l →
    headerSubF fuel l = l := by
  intro fuel
  induction fuel with
  | zero => intro l _; rfl
  | succ fuel ih =>
    intro l h
    cases l with
    | nil => rfl
    | cons c rest =>
      unfold headerSubF
      rw [parseH2Pair_none_of_no_lt h]
      rw [ih rest (fun hc => h (by simp [hc]))]

theorem headerSub_eq_self {l : List Char} (h : '<' ∉ l) : headerSub l = l :=
  headerSubF_eq_self l.length l h

theorem headNWS_of_SentInv {s : List Char} (h : SentInv s) : headNWS s := by
  rw [← h.2.1]
  exact headNWS_strip s

theorem lastNWS_of_SentInv {s : List Char} (h : SentInv s) : lastNWS s := by
  rw [← h.2.1]
  exact lastNWS_strip s

theorem SentInv_of_Shape {S : List (List Char)} (h : Shape S) :
    ∀ s ∈ S, SentInv s := by
  induction h with
  | nil => simp
  | frag s hf => simpa using hf.1
  | bsent s S hb _ ih =>
    intro x hx
    rcases List.mem_cons.mp hx with hx | hx
    · exact hx ▸ hb.1
    · exact ih x hx

theorem joinSp_good {S : List (List Char)} (hS : ∀ s ∈ S, SentInv s) :
    goodChars (joinSp S) ∧ '<' ∉ joinSp S ∧ headNWS (joinSp S) := by
  induction S with
  | nil =>
    have hj : joinSp ([] : List (List Char)) = [] := rfl
    rw [hj]
    exact ⟨⟨by simp, List.chain'_nil⟩, by simp, headNWS_nil⟩
  | cons s S ih =>
    have hs := hS s (by simp)
    have ihS := ih (fun x hx => hS x (by simp [hx]))
    cases S with
    | nil =>
      exact ⟨hs.2.2.1, hs.2.2.2, headNWS_of_SentInv hs⟩
    | cons t S2 =>
      have hjoin : joinSp (s :: t :: S2) = s ++ ' ' :: joinSp (t :: S2) := rfl
      have hne : joinSp (t :: S2) ≠ [] := by
        have ht := hS t (by simp)
        cases hj : joinSp (t :: S2) with
        | nil =>
          cases S2 with
          | nil => exact absurd hj ht.1
          | cons u S3 =>
            rw [show joinSp (t :: u :: S3) = t ++ ' ' :: joinSp (u :: S3) from rfl] at hj
            simp at hj
        | cons a l2 => simp
      rw [hjoin]
      refine ⟨⟨?_, ?_⟩, ?_, ?_⟩
      · intro c hc hw
        rcases List.mem_append.mp hc with hc | hc
        · exact hs.2.2.1.1 c hc hw
        · rcases List.mem_cons.mp hc with hc | hc
          · exact hc
          · exact ihS.1.1 c hc hw
      · rw [List.chain'_append]
        refine ⟨hs.2.2.1.2, ?_, ?_⟩
        · rw [List.chain'_cons']
          refine ⟨?_, ihS.1.2⟩
          intro y hy
          intro hcon
          have := ihS.2.2 y hy
          rw [this] at hcon
          exact absurd hcon.2 (by simp)
        · intro x hx y hy
          have hxn := lastNWS_of_SentInv hs x (by simpa using hx)
          intro hcon
          rw [hxn] at hcon
          exact absurd hcon.1 (by simp)
      · intro hmem
        rcases List.mem_append.mp hmem with hc | hc
        · exact hs.2.2.2 hc
        · rcases List.mem_cons.mp hc with hc | hc
          · cases hc
          · exact ihS.2.1 hc
      · have hsne := hs.1
        intro c hc
        rw [List.head?_append_of_ne_nil _ hsne] at hc
        exact headNWS_of_SentInv hs c hc

theorem concat_eq_append_cons {a b d : List Char} {x c : Char}
    (e : a ++ [x] = b ++ c :: d) (hd : d ≠ []) :
    ∃ y, d = y ++ [x] ∧ a = b ++ c :: y := by
  have hcd : (c :: d).getLast? = d.getLast? := by
    cases d with
    | nil => exact absurd rfl hd
    | cons u us => rfl
  have hlast : d.getLast? = some x := by
    have h1 : (a ++ [x]).getLast? = some x := List.getLast?_concat a
    rw [e, List.getLast?_append_of_ne_nil _ (by simp : (c :: d) ≠ []), hcd] at h1
    exact h1
  refine ⟨d.dropLast, ?_, ?_⟩
  · have h2 := List.dropLast_append_getLast hd
    rw [List.getLast_eq_iff_getLast?_eq_some hd |>.mpr hlast] at h2
    exact h2.symm
  · have h3 := congrArg List.dropLast e
    rw [List.dropLast_concat] at h3
    have h4 : (b ++ c :: d).dropLast = b ++ (c :: d).dropLast := by
      rw [List.dropLast_append_of_ne_nil]
      simp
    have hcd2 : (c :: d).dropLast = c :: d.dropLast := by
      cases d with
      | nil => exact absurd rfl hd
      | cons u us => rfl
    rw [h4, hcd2] at h3
    exact h3

theorem head?_append_cons (p : List Char) (c : Char) (q r : List Char) :
    (p ++ c :: q).head? = (p ++ c :: r).head? := by
  cases p <;> simp

theorem headNWS_switch {p q r : List Char} {c : Char}
    (h : headNWS (p ++ c :: q)) : headNWS (p ++ c :: r) := by
  intro y hy
  exact h y (by rw [head?_append_cons p c q r]; exact hy)

theorem strip_pref {p q : List Char} {c : Char} (hh : headNWS (p ++ c :: q))
    (hc : isPunct c = true) : strip (p ++ [c]) = p ++ [c] := by
  refine strip_eq_self (headNWS_switch (r := []) hh) ?_
  intro y hy
  rw [List.getLast?_concat] at hy
  injection hy with hy
  subst hy
  exact isPunct_not_ws hc

theorem splitGo_shape : ∀ (rest cur : List Char),
    goodChars (cur ++ rest) → ('<' ∉ cur ++ rest) →
    (∀ p c q, cur = p ++ c :: q → isPunct c = true →
      (strip (p ++ [c])).length ≤ 10) →
    Shape (splitGo cur rest) := by
  intro rest
  induction rest with
  | nil =>
    intro cur hg hlt hinv
    rw [splitGo]
    split
    · exact Shape.nil
    · rename_i hne
      refine Shape.frag _ ⟨⟨hne, strip_idem cur, goodChars_strip (by simpa using hg),
        not_mem_strip (by simpa using hlt)⟩, ?_⟩
      intro p c q hdec hc
      obtain ⟨w1, w2, hw1, hw2, hcur⟩ := strip_decomp cur
      have hcur2 : cur = (w1 ++ p) ++ c :: (q ++ w2) := by
        rw [hcur, hdec]
        simp [List.append_assoc]
      have h10 := hinv (w1 ++ p) c (q ++ w2) hcur2 hc
      rw [List.append_assoc, strip_append_allWS hw1] at h10
      have hhead : headNWS (p ++ c :: q) := by
        rw [← hdec]
        exact headNWS_strip cur
      rw [strip_pref hhead hc] at h10
      simpa using h10
  | cons c rest ih =>
    intro cur hg hlt hinv
    have hgsplit : goodChars ((cur ++ [c]) ++ rest) := by
      simpa [List.append_assoc] using hg
    have hltsplit : '<' ∉ (cur ++ [c]) ++ rest := by
      simpa [List.append_assoc] using hlt
    rw [splitGo]
    by_cases hfire : isPunct c = true ∧ 10 < (strip (cur ++ [c])).length
    · rw [if_pos hfire]
      have hg1 : goodChars (cur ++ [c]) := goodChars_append_left hgsplit
      have hlt1 : '<' ∉ cur ++ [c] := fun hm => hltsplit (List.mem_append.mpr (Or.inl hm))
      have hsne : strip (cur ++ [c]) ≠ [] := by
        intro he
        rw [he] at hfire
        exact absurd hfire.2 (by simp)
      have hslast : ∃ p0, strip (cur ++ [c]) = p0 ++ [c] := by
        have htlne : trimLeft (cur ++ [c]) ≠ [] := by
          intro he
          apply hsne
          unfold strip
          rw [he]
          rfl
        have htlast : (trimLeft (cur ++ [c])).getLast? = some c := by
          have hdec : cur ++ [c] = (cur ++ [c]).takeWhile isWS ++ trimLeft (cur ++ [c]) :=
            (List.takeWhile_append_dropWhile isWS (cur ++ [c])).symm
          have h1 : (cur ++ [c]).getLast? = some c := List.getLast?_concat cur
          rw [hdec, List.getLast?_append_of_ne_nil _ htlne] at h1
          exact h1
        have hstrip_eq : strip (cur ++ [c]) = trimLeft (cur ++ [c]) := by
          unfold strip
          apply trimRight_eq_self
          intro y hy
          rw [htlast] at hy
          injection hy with hy
          subst hy
          exact isPunct_not_ws hfire.1
        refine ⟨(trimLeft (cur ++ [c])).dropLast, ?_⟩
        rw [hstrip_eq]
        have h2 := List.dropLast_append_getLast htlne
        rw [List.getLast_eq_iff_getLast?_eq_some htlne |>.mpr htlast] at h2
        exact h2.symm
      have hrest : Shape (splitGo [] rest) := by
        refine ih [] ?_ ?_ ?_
        · simpa using goodChars_append_right hgsplit
        · intro hm
          exact hltsplit (by simp at hm; simp [hm])
        · intro p c' q hdec
          simp at hdec
      refine Shape.bsent _ _ ⟨⟨hsne, strip_idem _, goodChars_strip hg1,
        not_mem_strip hlt1⟩, ?_, ?_⟩ hrest
      · intro p c' q hdec hqne hc'
        obtain ⟨w1, w2, hw1, hw2, hcur⟩ := strip_decomp (cur ++ [c])
        have hcur2 : cur ++ [c] = (w1 ++ p) ++ c' :: (q ++ w2) := by
          rw [hcur, hdec]
          simp [List.append_assoc]
        obtain ⟨y, hy1, hy2⟩ := concat_eq_append_cons hcur2
          (by intro he; exact hqne (List.append_eq_nil.mp he).1)
        have h10 := hinv (w1 ++ p) c' y hy2 hc'
        rw [List.append_assoc, strip_append_allWS hw1] at h10
        have hhead : headNWS (p ++ c' :: q) := by
          rw [← hdec]
          exact headNWS_strip (cur ++ [c])
        rw [strip_pref hhead hc'] at h10
        simpa using h10
      · obtain ⟨p0, hp0⟩ := hslast
        exact ⟨p0, c, hp0, hfire.1, hfire.2⟩
    · rw [if_neg hfire]
      refine ih (cur ++ [c]) hgsplit hltsplit ?_
      intro p c' q hdec hc'
      by_cases hq : q = []
      · subst hq
        have hl := congrArg List.length hdec
        simp only [List.length_append, List.length_cons, List.length_nil] at hl
        have hinj := List.append_inj hdec.symm (by omega)
        have hp : p = cur := hinj.1
        have hcc : c' = c := by
          have := hinj.2
          simp only [List.cons.injEq] at this
          exact this.1
        subst hp
        subst hcc
        by_contra hgt
        exact hfire ⟨hc', by omega⟩
      · obtain ⟨y, hy1, hy2⟩ := concat_eq_append_cons hdec hq
        exact hinv p c' y hy2 hc'

theorem dedupRun_stable (S : List (List Char)) :
    ∀ seen, dedupRun seen (dedupRun seen S) = dedupRun seen S := by
  induction S with
  | nil => intro seen; rfl
  | cons s ss ih =>
    intro seen
    by_cases h15 : (cleanSentence s).length < 15
    · have hstep : dedupRun seen (s :: ss) = s :: dedupRun seen ss := by
        rw [dedupRun, if_pos h15]
      rw [hstep, dedupRun, if_pos h15, ih seen]
    · by_cases hdup : ∃ k ∈ seen, isDupOf (cleanSentence s) k
      · have hstep : dedupRun seen (s :: ss) = dedupRun seen ss := by
          rw [dedupRun, if_neg h15, if_pos hdup]
        rw [hstep, ih seen]
      · have hstep : dedupRun seen (s :: ss) =
            s :: dedupRun (addKey seen (cleanSentence s)) ss := by
          rw [dedupRun, if_neg h15, if_neg hdup]
        rw [hstep, dedupRun, if_neg h15, if_neg hdup,
          ih (addKey seen (cleanSentence s))]

theorem Shape_dedupRun {S : List (List Char)} (h : Shape S) :
    ∀ seen, Shape (dedupRun seen S) := by
  induction h with
  | nil => intro seen; exact Shape.nil
  | frag s hf =>
    intro seen
    by_cases h15 : (cleanSentence s).length < 15
    · rw [dedupRun, if_pos h15]
      exact Shape.frag s hf
    · by_cases hdup : ∃ k ∈ seen, isDupOf (cleanSentence s) k
      · rw [dedupRun, if_neg h15, if_pos hdup]
        exact Shape.nil
      · rw [dedupRun, if_neg h15, if_neg hdup]
        exact Shape.frag s hf
  | bsent s S hb hS ih =>
    intro seen
    by_cases h15 : (cleanSentence s).length < 15
    · rw [dedupRun, if_pos h15]
      exact Shape.bsent s _ hb (ih seen)
    · by_cases hdup : ∃ k ∈ seen, isDupOf (cleanSentence s) k
      · rw [dedupRun, if_neg h15, if_pos hdup]
        exact ih seen
      · rw [dedupRun, if_neg h15, if_neg hdup]
        exact Shape.bsent s _ hb (ih (addKey seen (cleanSentence s)))

theorem splitGo_congr : ∀ (u cur1 cur2 : List Char),
    (∀ x, strip (cur1 ++ x) = strip (cur2 ++ x)) →
    splitGo cur1 u = splitGo cur2 u := by
  intro u
  induction u with
  | nil =>
    intro cur1 cur2 h
    have h0 := h []
    simp only [List.append_nil] at h0
    rw [splitGo, splitGo, h0]
  | cons c u ih =>
    intro cur1 cur2 h
    have hc := h [c]
    rw [splitGo, splitGo, hc]
    by_cases hcond : isPunct c = true ∧ 10 < (strip (cur2 ++ [c])).length
    · rw [if_pos hcond, if_pos hcond]
    · rw [if_neg hcond, if_neg hcond]
      exact ih (cur1 ++ [c]) (cur2 ++ [c])
        (fun x => by rw [List.append_assoc, List.append_assoc]; exact h ([c] ++ x))

theorem splitGo_through_bsent {s : List Char} (hB : BSent s) :
    ∀ (q p tail : List Char), s = p ++ q → q ≠ [] →
      splitGo p (q ++ tail) = s :: splitGo [] tail := by
  intro q
  induction q with
  | nil =>
    intro p tail _ hq
    exact absurd rfl hq
  | cons c q' ih =>
    intro p tail hs _
    cases q' with
    | nil =>
      obtain ⟨p0, c0, hs0, hc0, hlen⟩ := hB.2.2
      have hpc : p = p0 ∧ c = c0 := by
        rw [hs] at hs0
        have hl := congrArg List.length hs0
        simp only [List.length_append, List.length_cons, List.length_nil] at hl
        have hinj := List.append_inj hs0 (by omega)
        exact ⟨hinj.1, by simpa using hinj.2⟩
      have hstrip : strip (p ++ [c]) = s := by
        rw [← hs]
        conv_rhs => rw [← hB.1.2.1]
      rw [show ((c :: []) ++ tail) = c :: tail from rfl, splitGo]
      rw [if_pos ⟨hpc.2 ▸ hc0, by rw [hstrip]; exact hlen⟩]
      rw [hstrip]
    | cons c2 q2 =>
      have hple : isPunct c = true → (strip (p ++ [c])).length ≤ 10 := by
        intro hc
        have h10 := hB.2.1 p c (c2 :: q2) hs (by simp) hc
        have hh : headNWS (p ++ c :: c2 :: q2) := by
          rw [← hs]
          exact headNWS_of_SentInv hB.1
        rw [strip_pref hh hc]
        simpa using h10
      rw [show ((c :: c2 :: q2) ++ tail) = c :: ((c2 :: q2) ++ tail) from rfl, splitGo]
      rw [if_neg (fun hcon => absurd hcon.2 (by have := hple hcon.1; omega))]
      exact ih (p ++ [c]) tail (by rw [hs]; simp) (by simp)

theorem splitGo_frag {s : List Char} (hF : FragSent s) :
    ∀ (q p : List Char), s = p ++ q → splitGo p q = [s] := by
  intro q
  induction q with
  | nil =>
    intro p hs
    simp only [List.append_nil] at hs
    subst hs
    rw [splitGo, if_neg]
    · rw [hF.1.2.1]
    · rw [hF.1.2.1]
      exact hF.1.1
  | cons c q' ih =>
    intro p hs
    have hple : isPunct c = true → (strip (p ++ [c])).length ≤ 10 := by
      intro hc
      have h10 := hF.2 p c q' hs hc
      have hh : headNWS (p ++ c :: q') := by
        rw [← hs]
        exact headNWS_of_SentInv hF.1
      rw [strip_pref hh hc]
      simpa using h10
    rw [splitGo]
    rw [if_neg (fun hcon => absurd hcon.2 (by have := hple hcon.1; omega))]
    exact ih (p ++ [c]) (by rw [hs]; simp)

theorem splitGo_skip_space (u : List Char) :
    splitGo [] (' ' :: u) = splitGo [] u := by
  rw [splitGo]
  rw [if_neg (fun hcon => by simpa [isPunct] using hcon.1)]
  exact splitGo_congr u [' '] []
    (fun x => by
      rw [show ([' '] ++ x) = [' '] ++ x from rfl,
        strip_append_allWS (by intro y hy; simp at hy; subst hy; rfl)]
      rfl)

theorem splitSentences_joinSp {S : List (List Char)} (h : Shape S) :
    splitSentences (joinSp S) = S := by
  induction h with
  | nil => decide
  | frag s hf =>
    exact splitGo_frag hf s [] rfl
  | bsent s S hb hS ih =>
    cases S with
    | nil =>
      unfold splitSentences
      have h1 : joinSp [s] = s ++ [] := by simp [joinSp]
      rw [h1, splitGo_through_bsent hb s [] [] rfl hb.1.1]
      rfl
    | cons t S2 =>
      unfold splitSentences
      have h1 : joinSp (s :: t :: S2) = s ++ (' ' :: joinSp (t :: S2)) := rfl
      rw [h1, splitGo_through_bsent hb s [] (' ' :: joinSp (t :: S2)) rfl hb.1.1,
        splitGo_skip_space]
      unfold splitSentences at ih
      rw [ih]

theorem Shape_splitSentences {t : List Char} (hg : goodText t) :
    Shape (splitSentences t) := by
  refine splitGo_shape t [] (by simpa using hg.1) (by simpa using hg.2) ?_
  intro p c q hd
  simp at hd

theorem rdcL_good {t : List Char} (hg : goodText t) :
    rdcL t = joinSp (dedupRun [] (splitSentences t)) := by
  unfold rdcL
  have hShapeR : Shape (dedupRun [] (splitSentences t)) :=
    Shape_dedupRun (Shape_splitSentences hg) []
  obtain ⟨hgood, hlt, -⟩ := joinSp_good (SentInv_of_Shape hShapeR)
  rw [collapseWS_eq_self hgood, headerSub_eq_self hlt]

theorem rdcL_fixpoint {t : List Char} (hg : goodText t) :
    rdcL (joinSp (dedupRun [] (splitSentences t))) =
      joinSp (dedupRun [] (splitSentences t)) := by
  have hShapeR : Shape (dedupRun [] (splitSentences t)) :=
    Shape_dedupRun (Shape_splitSentences hg) []
  unfold rdcL
  rw [splitSentences_joinSp hShapeR, dedupRun_stable]
  obtain ⟨hgood, hlt, -⟩ := joinSp_good (SentInv_of_Shape hShapeR)
  rw [collapseWS_eq_self hgood, headerSub_eq_self hlt]

/-- C8 counterexample: the eliminator is not idempotent.  On the input
`alpha bee. cc dd ee. alpha  bee. cc dd ee. zzzzz.` the first pass keeps
all three sentences but collapses the double space; on the second pass
the shortened `alpha bee.` no longer ends a sentence, merges with its
successor into an exact duplicate of the first sentence, and is
discarded — a second application changes the output. -/
theorem claim8_counterexample :
    remove_duplicate_content (remove_duplicate_content nonIdem) ≠
      remove_duplicate_content nonIdem := by
  decide

/-- C8 as amended: the sentence-level deduplication pass is idempotent
for every key set and sentence list, and the full string-level
eliminator is idempotent on every text whose whitespace consists of
single spaces only and that holds no angle brackets; in general the
string-level function is NOT idempotent, because its final whitespace
collapsing can shorten a sentence below the 10-character split
threshold and change the segmentation seen by a second pass. -/
theorem claim8_amended :
    (∀ (seen : List (List Char)) (S : List (List Char)),
      dedupRun seen (dedupRun seen S) = dedupRun seen S) ∧
    (∀ s : String, goodText s.data →
      remove_duplicate_content (remove_duplicate_content s) =
        remove_duplicate_content s) := by
  refine ⟨fun seen S => dedupRun_stable S seen, ?_⟩
  intro s hg
  by_cases hs : s = ""
  · subst hs
    rfl
  · have hfs : remove_duplicate_content s = ⟨joinSp (dedupRun [] (splitSentences s.data))⟩ := by
      unfold remove_duplicate_content
      rw [if_neg hs, rdcL_good hg]
    rw [hfs]
    unfold remove_duplicate_content
    by_cases hj : (⟨joinSp (dedupRun [] (splitSentences s.data))⟩ : String) = ""
    · rw [if_pos hj]
    · rw [if_neg hj]
      have hdata : (⟨joinSp (dedupRun [] (splitSentences s.data))⟩ : String).data =
          joinSp (dedupRun [] (splitSentences s.data)) := rfl
      rw [hdata, rdcL_fixpoint hg]

/-- The boolean chain checker agrees with the chain proposition. -/
theorem chainOkB_iff : ∀ l : List Char,
    chainOkB l = true ↔ l.Chain' (fun a b => ¬ (isWS a = true ∧ isWS b = true))
  | [] => by simp [chainOkB]
  | [a] => by simp [chainOkB]
  | a :: b :: rest => by
    rw [chainOkB, Bool.and_eq_true, chainOkB_iff (b :: rest), List.chain'_cons]
    apply and_congr _ Iff.rfl
    cases ha : isWS a <;> cases hb : isWS b <;> simp [ha, hb]

/-- The boolean checker agrees with `goodChars`. -/
theorem goodCharsB_iff (l : List Char) : goodCharsB l = true ↔ goodChars l := by
  unfold goodCharsB goodChars
  rw [Bool.and_eq_true, List.all_eq_true, chainOkB_iff]
  apply and_congr _ Iff.rfl
  apply forall_congr'
  intro c
  apply imp_congr_right
  intro _
  cases hws : isWS c <;> simp [hws]

/-- The boolean checker agrees with `goodText`. -/
theorem goodTextB_iff (l : List Char) : goodTextB l = true ↔ goodText l := by
  unfold goodTextB goodText
  rw [Bool.and_eq_true, List.all_eq_true]
  apply and_congr (goodCharsB_iff l)
  constructor
  · intro h hm
    have := h _ hm
    simp at this
  · intro h c hc
    simp only [Bool.not_eq_true', beq_eq_false_iff_ne, ne_eq]
    intro he
    exact h (he ▸ hc)

/-- The concrete fixture satisfies the idempotence side condition. -/
theorem goodFix_goodText : goodText goodFix.data := by
  rw [← goodTextB_iff]
  decide

/-- Witness for the amended C8 at a concrete single-space text and a
concrete sentence list. -/
theorem claim8_witness :
    goodText goodFix.data ∧
    remove_duplicate_content (remove_duplicate_content goodFix) =
      remove_duplicate_content goodFix ∧
    dedupRun [] (dedupRun [] ["this is sentence one.".data, "hi.".data]) =
      dedupRun [] ["this is sentence one.".data, "hi.".data] :=
  ⟨goodFix_goodText, claim8_amended.2 goodFix goodFix_goodText,
    claim8_amended.1 [] ["this is sentence one.".data, "hi.".data]⟩

end DecenRep
